import Mathlib

/-!
# Verification of the Ultra procedure-composition and dispatch engine

Shallow embedding of the composition/dispatch core of the `@sx3/ultra`
repository (src/ultra.ts, src/procedure.ts, src/response.ts, src/rpc.ts,
src/error.ts and their typed collaborators) together with proofs about the
properties its specification states.

Modelling conventions, used throughout:

* A JavaScript `Set` is an insertion-ordered collection without duplicates,
  keyed by reference identity.  Functions and other declarations that the
  source deduplicates by reference identity are modelled by identity tokens
  (`Nat`); the `Set` itself is a duplicate-free `List` built with
  `insertUniq` (the semantics of `Set.prototype.add`).
* A JavaScript `Map` is an insertion-ordered association list with unique
  keys (`List (κ × β)` plus the `lookupKey` first-match lookup).
* Asynchronous code is modelled by its sequential semantics: every `await`
  point is a plain function call (the spec's single-logical-thread model).
* Exceptions are modelled with `Except`: a thrown value is `.error v`,
  normal completion `.ok v`.
-/

namespace Ultra

/-! ## JavaScript collection primitives -/

/-- `Set.prototype.add`: append the element unless it is already present
(insertion order preserved, duplicates ignored). -/
def insertUniq {α : Type} [DecidableEq α] (l : List α) (x : α) : List α :=
  if x ∈ l then l else l ++ [x]

/-- `xs.forEach(x => s.add(x))`: add every element of `xs` to the set `s`. -/
def addAll {α : Type} [DecidableEq α] (s : List α) (xs : List α) : List α :=
  xs.foldl insertUniq s

/-- `new Set(xs)`: the insertion-ordered deduplication of a list. -/
def jsSetOfList {α : Type} [DecidableEq α] (xs : List α) : List α :=
  addAll [] xs

/-- Specification-side first-occurrence deduplication: keep each element at
the position of its first occurrence, drop all later duplicates. -/
def firstOccur {α : Type} [DecidableEq α] : List α → List α
  | [] => []
  | a :: t => a :: firstOccur (t.filter (fun b => decide (b ≠ a)))
termination_by l => l.length
decreasing_by
  simp only [List.length_cons]
  exact Nat.lt_succ_of_le (List.length_filter_le _ _)

/-- First-match lookup of an association list (`Map.prototype.get` /
property access on a plain object). -/
def lookupKey {κ β : Type} [DecidableEq κ] : List (κ × β) → κ → Option β
  | [], _ => none
  | (k', v) :: t, k => if k' = k then some v else lookupKey t k

/-- Assignment of one property: overwrite the value in place when the key is
present (keeping its position), append otherwise.  This is the semantics of
`obj[k] = v` on a plain object. -/
def setKey {κ β : Type} [DecidableEq κ] (m : List (κ × β)) (k : κ) (v : β) : List (κ × β) :=
  if (lookupKey m k).isSome then
    m.map (fun p => if p.1 = k then (k, v) else p)
  else m ++ [(k, v)]

/-- `Object.assign(target, source)` restricted to the enumerable string keys
of `source`, in order. -/
def objAssign {κ β : Type} [DecidableEq κ] (m : List (κ × β)) (upd : List (κ × β)) : List (κ × β) :=
  upd.foldl (fun acc kv => setKey acc kv.1 kv.2) m

/-- Concatenation-map on lists (used instead of library `flatMap` to keep
every definition self-contained). -/
def catMap {α β : Type} (f : α → List β) : List α → List β
  | [] => []
  | a :: t => f a ++ catMap f t

/-! ## Middleware chains as traces (src/middleware.ts, `Ultra.wrapHandler`)

A middleware is identified by its reference-identity token (`MWId`).  For
the ordering properties the spec states, middleware behaviour is modelled
in the regime the spec itself fixes ("every middleware calls `next()`
exactly once and awaits it before returning"): invoking a middleware
records an entry event, runs its `next()` continuation, records a return
event, and passes the inner result through.  The terminal handler records
a single `handled` event. -/

/-- Reference-identity token of a middleware function. -/
abbrev MWId := Nat

/-- Observable events of one invocation of a composed middleware chain. -/
inductive MWEvent : Type where
  /-- a middleware was entered (it runs up to its `next()` call) -/
  | call (m : MWId)
  /-- a middleware returned (it ran the code after `await next()`) -/
  | ret (m : MWId)
  /-- the terminal handler ran -/
  | handled
deriving DecidableEq, Repr

/-- The `next` closure of `Ultra.wrapHandler` (src/ultra.ts lines 310-317):
`idx` starts at 0 and is incremented on each call; while `idx < length` the
middleware at `idx` runs (entry event, recursive `next()`, return event),
and once `idx` reaches the length the terminal handler runs.  With every
middleware calling `next()` exactly once, the shared mutable `idx` visits
`0, 1, ..., length` in order, which is what this recursion computes. -/
def chainNext (mws : List MWId) (idx : Nat) : List MWEvent :=
  if h : idx < mws.length then
    .call mws[idx] :: chainNext mws (idx + 1) ++ [.ret mws[idx]]
  else [.handled]
termination_by mws.length - idx

/-- `Ultra.wrapHandler` (src/ultra.ts lines 306-318): returns the handler
unchanged when the middleware set is empty, otherwise the composed callable
threading `next` through `Array.from(middlewares)`. -/
def wrapHandler (mws : List MWId) : List MWEvent :=
  if mws.length = 0 then [.handled] else chainNext mws 0

/-- The effective middleware set of one compiled procedure
(src/ultra.ts lines 349-353): `new Set([...this.middlewares,
...scopedMiddleware, ...procedure.middlewares])`. -/
def effectiveMiddlewares (globalMws scopedMws ownMws : List MWId) : List MWId :=
  jsSetOfList (globalMws ++ scopedMws ++ ownMws)

/-- The middleware loop of `Procedure.wrap` (src/procedure.ts lines
101-110): iterating `i` from `length - 1` down to `0` and re-wrapping
`composed` each time, so that after the loop the middleware at index 0 is
the outermost layer.  As a trace transformer this is exactly a right fold
over the registration-ordered array. -/
def wrapOwn (ownMws : List MWId) (inner : List MWEvent) : List MWEvent :=
  ownMws.foldr (fun mw acc => .call mw :: acc ++ [.ret mw]) inner

/-! ## Runtime values

The universe of JavaScript values the dispatch core discriminates on.
`instanceof UltraError` / `instanceof Error` / `instanceof Response` and
`typeof` checks of src/response.ts become constructor matches.
`UltraError` (src/error.ts) carries `name`, `message` and `status`;
`ValidationError` is the instance with name `"ValidationError"` and
status 422. -/

inductive JSVal : Type where
  /-- `undefined` -/
  | undef
  /-- `null` (note `typeof null === 'object'`) -/
  | nullv
  | bool (b : Bool)
  | num (n : Int)
  | str (s : String)
  /-- a plain object with its enumerable string properties in order -/
  | obj (fields : List (String × JSVal))
  /-- an `UltraError` instance (`name`, `message`, `status`) -/
  | ultraErr (name message : String) (status : Nat)
  /-- a plain `Error` instance that is not an `UltraError` -/
  | jsError (message : String)
  /-- a `Response` instance (`status`, `statusText`) -/
  | response (status : Nat) (statusText : String)

/-- The execution context: the per-invocation record's enumerable fields.
(The `server`/`request`/`ws` handles are opaque to every property the
claims are about and are elided.) -/
abbrev Ctx := List (String × JSVal)

/-- `{input, context}`, the options record every handler receives
(src/procedure.ts `ProcedureOptions`). -/
structure POptions : Type where
  input : JSVal
  context : Ctx

/-- A compiled handler: may return a value or throw one. -/
abbrev Handler := POptions → Except JSVal JSVal

/-! ## Validation (spec-modelled leaf)

`src/validation.ts` is not among the sources; only its type declarations,
its unit tests and its callers are.  Everything below the `SchemaOutcome`
line is translated from the source; `validate` itself is modelled from the
spec (§4.1: "`validate(schema, rawValue)` → typed value, fails with a
`ValidationFailure` carrying a structured list of issue descriptors") and
from tests/validation.test.ts (the failure thrown is a `ValidationError`,
i.e. an `UltraError` with name `"ValidationError"` and status 422, whose
message is formatted from the issues). -/

/-- Outcome of a Standard-Schema `~standard.validate` call: either the
(possibly transformed) value or a list of issue messages. -/
inductive SchemaOutcome : Type where
  | value (v : JSVal)
  | issues (msgs : List String)

/-- A schema capability: validates/transforms a raw value. -/
abbrev SchemaF := JSVal → SchemaOutcome

/-- Modelled from the spec: the message `validate` formats from the issue
list of a failed validation (the exact formatting is irrelevant to every
claim; only that the thrown error is a `ValidationError`). -/
def formatIssues (msgs : List String) : String :=
  String.intercalate "; " msgs

/-- Modelled from the spec: `validate(schema, value)` (src/validation.ts,
absent from the sources) returns the schema's output value and throws a
`ValidationError` (status 422) when the schema reports issues. -/
def validate (schema : SchemaF) (value : JSVal) : Except JSVal JSVal :=
  match schema value with
  | .value v => .ok v
  | .issues msgs => .error (.ultraErr "ValidationError" (formatIssues msgs) 422)

/-- A thrown value is a `ValidationFailure` when it is an `UltraError`
named `ValidationError` with status 422 (src/error.ts `ValidationError`). -/
def isValidationFailure (e : JSVal) : Prop :=
  ∃ m, e = JSVal.ultraErr "ValidationError" m 422

/-! ## Procedure (src/procedure.ts) -/

/-- HTTP exposure metadata of a procedure. -/
structure HTTPOptions : Type where
  enabled : Bool
  method : Option String
deriving DecidableEq, Repr

/-- The accumulated state of a `Procedure` builder: optional input schema,
optional output schema, optional handler, the `Set` of operation-scoped
middleware (identity tokens, insertion order), optional HTTP options. -/
structure Procedure : Type where
  inputSchema : Option SchemaF
  outputSchema : Option SchemaF
  handlerFunction : Option Handler
  middlewares : List MWId
  httpOptions : Option HTTPOptions

/-- The two configuration errors the compiler can throw (`new Error(...)`
in the source; `message` below recovers the exact message strings). -/
inductive BuildErr : Type where
  /-- `Procedure "<path>" already exists` (src/ultra.ts line 343) -/
  | conflictE (path : String)
  /-- `Procedure handler is not defined` (src/procedure.ts line 80) -/
  | missingHandlerE
deriving DecidableEq, Repr

/-- The `message` property of the thrown `Error`. -/
def BuildErr.message : BuildErr → String
  | .conflictE path => "Procedure \"" ++ path ++ "\" already exists"
  | .missingHandlerE => "Procedure handler is not defined"

/-- `Procedure.compile` (src/procedure.ts lines 79-110): fail when no
handler was set; return the raw handler when neither schema is present;
otherwise wrap with input validation (before the handler), output
validation (after the handler), or both. -/
def Procedure.compile (p : Procedure) : Except BuildErr Handler :=
  match p.handlerFunction with
  | none => .error .missingHandlerE
  | some handler =>
    if p.inputSchema.isNone && p.outputSchema.isNone then .ok handler
    else
      match p.inputSchema, p.outputSchema with
      | none, none => .ok handler
      | none, some oSchema =>
        .ok fun options => (handler options).bind (validate oSchema)
      | some iSchema, none =>
        .ok fun options =>
          (validate iSchema options.input).bind fun iv =>
            handler { options with input := iv }
      | some iSchema, some oSchema =>
        .ok fun options =>
          (validate iSchema options.input).bind fun iv =>
            (handler { options with input := iv }).bind (validate oSchema)

/-! ## RPC envelopes (src/rpc.ts, src/response.ts, `Ultra.handleRPC`) -/

/-- A request envelope `{id, method, params}`. -/
structure Payload : Type where
  id : String
  method : String
  params : JSVal

/-- The body of a response envelope: `{result}` or `{error: {code, message}}`. -/
inductive RpcBody : Type where
  | success (result : JSVal)
  | failure (code : Nat) (message : String)

/-- A response envelope, keyed by the request's `id`. -/
structure RpcResult : Type where
  id : String
  body : RpcBody

/-- `toRPCResponse` (src/response.ts lines 21-41): convert a returned or
thrown value into a response envelope keyed by `id`.  The `UltraError`
check precedes the `Error` check (an `UltraError` is an `Error`); objects,
`null` (`typeof null === 'object'`), numbers and booleans become success
results; the default branch stringifies (`String(data)`). -/
def toRPCResponse (id : String) (data : JSVal) : RpcResult :=
  match data with
  | .ultraErr _ message status => ⟨id, .failure status message⟩
  | .jsError message => ⟨id, .failure 500 message⟩
  | .response status statusText => ⟨id, .failure status statusText⟩
  | .obj fields => ⟨id, .success (.obj fields)⟩
  | .nullv => ⟨id, .success .nullv⟩
  | .num n => ⟨id, .success (.num n)⟩
  | .bool b => ⟨id, .success (.bool b)⟩
  | .str s => ⟨id, .success (.str s)⟩
  | .undef => ⟨id, .success (.str "undefined")⟩

/-- Whether a value hits one of the error-shaped branches of
`toRPCResponse` (`instanceof UltraError` / `Error` / `Response`). -/
def isErrorLike : JSVal → Bool
  | .ultraErr _ _ _ => true
  | .jsError _ => true
  | .response _ _ => true
  | _ => false

/-- `Ultra.handleRPC` (src/ultra.ts lines 238-254): no handler for the
method sends the 404 not-found envelope keyed by the request's id;
otherwise the handler is invoked, its result — or the exception it threw,
which is caught — is converted by `toRPCResponse` and sent, keyed by the
request's id.  The returned value is the one envelope written to the
socket; the function is total, so no exception escapes. -/
def handleRPC (handler : Option Handler) (rpc : Payload) (context : Ctx) : RpcResult :=
  match handler with
  | none => ⟨rpc.id, .failure 404 "Not found"⟩
  | some h =>
    match h { input := rpc.params, context := context } with
    | .ok v => toRPCResponse rpc.id v
    | .error e => toRPCResponse rpc.id e

/-! ## Context derivation (`Ultra.derive` / `Ultra.enrichContext`) -/

/-- A context-derivation declaration: a static record or a function of the
context (src/context.ts `DeriveValue`). -/
inductive DeriveValue : Type where
  | staticv (fields : List (String × JSVal))
  | derivef (f : Ctx → List (String × JSVal))

/-- A registered derivation step: its reference-identity token plus its
declaration.  The token instruments the trace of executed steps. -/
structure DeriveStep : Type where
  id : Nat
  value : DeriveValue

/-- One step of `enrichContext`: a function is applied to the current
context, a static record is used as-is. -/
def applyDerive (c : Ctx) : DeriveValue → List (String × JSVal)
  | .staticv fields => fields
  | .derivef f => f c

/-- `Ultra.enrichContext` (src/ultra.ts lines 257-267): fold over the
registered derivation steps in insertion order, `Object.assign`-ing each
step's record into the context, each step receiving the context as
enriched by all earlier steps.  The second component records which step
ran, in order (instrumentation for the exactly-once property). -/
def enrichContext (derived : List DeriveStep) (context : Ctx) : Ctx × List Nat :=
  derived.foldl
    (fun acc d => (objAssign acc.1 (applyDerive acc.1 d.value), acc.2 ++ [d.id]))
    (context, [])

/-! ## The Module state and `use`/`merge` (src/ultra.ts lines 46-114, 287-303)

Declarations are identified by reference-identity tokens: initializers and
derivation steps by `Nat`, middleware by `MWId`, event listeners by `Nat`
under their `String` event name.  The two `Map`-valued fields
(`initializers`, `events`) are association lists whose values are `Set`s. -/

/-- The declaration sets an `Ultra` instance accumulates. -/
structure UltraDecls : Type where
  /-- `Map<initializer, Set<middleware>>` -/
  initializers : List (Nat × List MWId)
  /-- `Set<Middleware>` -/
  middlewares : List MWId
  /-- `Set<DeriveValue>` -/
  derived : List Nat
  /-- `Set<DeriveUpgradeValue>` -/
  derivedUpgrade : List Nat
  /-- `Map<event, Set<listener>>` -/
  events : List (String × List Nat)
deriving DecidableEq, Repr

/-- Update the value stored under `k` (the entry keeps its position). -/
def updateKey {κ : Type} [DecidableEq κ] (m : List (κ × List Nat)) (k : κ)
    (f : List Nat → List Nat) : List (κ × List Nat) :=
  m.map (fun p => if p.1 = k then (p.1, f p.2) else p)

/-- One entry of a map merge (the common pattern of both `Ultra.routes`
and `Ultra.merge`): when the key is absent, store a fresh `Set` built from
the incoming elements; when present, `add` each incoming element to the
existing `Set`. -/
def mergeMapStep {κ : Type} [DecidableEq κ] (acc : List (κ × List Nat))
    (e : κ × List Nat) : List (κ × List Nat) :=
  match lookupKey acc e.1 with
  | none => acc ++ [(e.1, jsSetOfList e.2)]
  | some _ => updateKey acc e.1 (fun cur => addAll cur e.2)

/-- Merge a whole map into another, entry by entry in insertion order. -/
def mergeMap {κ : Type} [DecidableEq κ] (m other : List (κ × List Nat)) :
    List (κ × List Nat) :=
  other.foldl mergeMapStep m

/-- `Ultra.merge` (src/ultra.ts lines 287-303): union every declaration
set of the other module into this one, keyed by reference identity. -/
def merge (self other : UltraDecls) : UltraDecls where
  initializers := mergeMap self.initializers other.initializers
  middlewares := addAll self.middlewares other.middlewares
  derived := addAll self.derived other.derived
  derivedUpgrade := addAll self.derivedUpgrade other.derivedUpgrade
  events := mergeMap self.events other.events

/-- The argument of `Ultra.use`: a middleware function or another module
(auto-detected by `typeof entity === 'function'`). -/
inductive UseEntity : Type where
  | mw (m : MWId)
  | module (u : UltraDecls)

/-- `Ultra.use` (src/ultra.ts lines 80-98): a middleware is added to the
global middleware `Set`; a module is merged. -/
def use (self : UltraDecls) : UseEntity → UltraDecls
  | .mw m => { self with middlewares := insertUniq self.middlewares m }
  | .module u => merge self u

/-- `Ultra.routes` (src/ultra.ts lines 69-77): register an operation-tree
initializer with optional scoped middleware; re-registering the same
initializer only adds its middleware to the existing scoped `Set`. -/
def routes (self : UltraDecls) (initializer : Nat) (mws : List MWId) : UltraDecls :=
  { self with initializers := mergeMapStep self.initializers (initializer, mws) }

/-- Well-formedness of a `Map<κ, Set>` as it exists at runtime: keys are
unique and every stored `Set` is duplicate-free. -/
def WFMap {κ : Type} (m : List (κ × List Nat)) : Prop :=
  (m.map Prod.fst).Nodup ∧ ∀ e ∈ m, e.2.Nodup

/-- Well-formedness of a module's declaration state: every `Set` is
duplicate-free and every `Map` has unique keys — the invariants the
JavaScript collections maintain by construction. -/
def UltraDecls.WF (s : UltraDecls) : Prop :=
  s.middlewares.Nodup ∧ s.derived.Nodup ∧ s.derivedUpgrade.Nodup ∧
    WFMap s.initializers ∧ WFMap s.events

instance {κ : Type} [DecidableEq κ] (m : List (κ × List Nat)) : Decidable (WFMap m) := by
  unfold WFMap
  infer_instance

instance (s : UltraDecls) : Decidable s.WF := by
  unfold UltraDecls.WF
  infer_instance

/-! ## The compiler (`Ultra.build`, src/ultra.ts lines 320-436)

The procedure tree an initializer returns is a nested string-keyed object
whose leaves are `Procedure` instances.  `build` walks each tree with an
explicit stack (`stack.pop()` takes the most recently pushed entry),
checks every leaf's flattened `/`-joined path against the accumulated
`handlers` map, throwing on a conflict, compiles the leaf and stores the
handler wrapped in the effective middleware set.  The HTTP route table is
a projection of the same walk and is not modelled; a stored entry is
modelled by its denotation `(effective middleware set, compiled handler)`
instead of the opaque closure `wrapHandler` builds from exactly those two
ingredients. -/

/-- A procedures map: leaves are `Procedure`s, inner nodes are nested
string-keyed objects. -/
inductive PTree : Type where
  | leaf (p : Procedure)
  | node (children : List (String × PTree))

/-- `path ? `${path}/${childKey}` : childKey` (src/ultra.ts line 429). -/
def joinPath (path childKey : String) : String :=
  if path = "" then childKey else path ++ "/" ++ childKey

/-- A dispatch-table entry: the effective middleware list and the compiled
procedure — the two ingredients `wrapHandler` closes over. -/
abbrev TableEntry := List MWId × Handler

/-- The stack walk of one initializer's tree (src/ultra.ts lines 339-432).
The head of the list is the top of the stack; children are pushed in
object order, hence popped in reverse. -/
def buildGo (globalMws scopedMws : List MWId) :
    List (String × PTree) → List (String × TableEntry) →
    Except BuildErr (List (String × TableEntry))
  | [], handlers => .ok handlers
  | (path, .leaf p) :: rest, handlers =>
    if (lookupKey handlers path).isSome then
      .error (.conflictE path)
    else
      match Procedure.compile p with
      | .error e => .error e
      | .ok compiled =>
        buildGo globalMws scopedMws rest
          (handlers ++
            [(path, (jsSetOfList (globalMws ++ scopedMws ++ p.middlewares), compiled))])
  | (path, .node children) :: rest, handlers =>
    buildGo globalMws scopedMws
      ((children.map (fun c => (joinPath path c.1, c.2))).reverse ++ rest) handlers
termination_by stack _ => (stack.map (fun e => sizeOf e.2)).sum
decreasing_by
  · simp only [List.map_cons, List.sum_cons]
    have h1 : 1 ≤ sizeOf (PTree.leaf p) := by
      simp [PTree.leaf.sizeOf_spec]
    omega
  · simp only [List.map_append, List.map_reverse, List.sum_append, List.sum_reverse,
      List.map_map, List.map_cons, List.sum_cons]
    have hlt : ((children.map (fun c => (joinPath path c.1, c.2))).map
        (fun e => sizeOf e.2)).sum < sizeOf (PTree.node children) := by
      rw [List.map_map]
      have : ∀ cs : List (String × PTree),
          (cs.map (fun c => sizeOf (joinPath path c.1, c.2).2)).sum < sizeOf (PTree.node cs) := by
        intro cs
        induction cs with
        | nil => simp [PTree.node.sizeOf_spec]
        | cons c t ih =>
          simp only [List.map_cons, List.sum_cons, PTree.node.sizeOf_spec,
            List.cons.sizeOf_spec] at *
          have hc : sizeOf c.2 ≤ sizeOf c := by
            cases c
            simp
          omega
      exact this children
    simp only [List.map_map] at hlt ⊢
    omega

/-- One registered initializer, already applied to the input factory: its
scoped middleware `Set` and the tree it returned. -/
structure InitEntry : Type where
  scopedMws : List MWId
  tree : List (String × PTree)

/-- The loop over registered initializers (src/ultra.ts lines 331-433).
The initial stack holds the tree's top-level entries pushed in object
order, so the walk pops them last-first: head-of-list stack = reversed
entry list. -/
def buildAll (globalMws : List MWId) :
    List InitEntry → List (String × TableEntry) →
    Except BuildErr (List (String × TableEntry))
  | [], handlers => .ok handlers
  | i :: rest, handlers =>
    match buildGo globalMws i.scopedMws i.tree.reverse handlers with
    | .error e => .error e
    | .ok handlers' => buildAll globalMws rest handlers'

/-- `Ultra.build` (src/ultra.ts lines 320-436), restricted to the
dispatch-table (`handlers`) output. -/
def build (globalMws : List MWId) (inits : List InitEntry) :
    Except BuildErr (List (String × TableEntry)) :=
  buildAll globalMws inits []

/-- Specification-side depth-first flattening of a procedure tree: the
`(path, procedure)` pairs with `/`-joined paths. -/
def flattenTree (path : String) : PTree → List (String × Procedure)
  | .leaf p => [(path, p)]
  | .node children =>
    catMap (fun c => flattenTree (joinPath path c.1.1) c.1.2) children.attach
termination_by t => sizeOf t
decreasing_by
  have h1 : sizeOf c.1 < sizeOf children := List.sizeOf_lt_of_mem c.2
  have h2 : sizeOf c.1.2 ≤ sizeOf c.1 := by
    obtain ⟨⟨k, t⟩, hm⟩ := c
    simp
  have h3 : sizeOf children < sizeOf (PTree.node children) := by
    simp [PTree.node.sizeOf_spec]
  omega

/-- The flattened `(path, procedure)` pairs contributed by one initializer
(top-level keys are used as paths directly). -/
def flattenInit (i : InitEntry) : List (String × Procedure) :=
  catMap (fun c => flattenTree c.1 c.2) i.tree

/-- All flattened paths of a collection of initializers, in declaration
order (with multiplicity: a duplicate path occurs more than once). -/
def allPaths (inits : List InitEntry) : List String :=
  catMap (fun i => (flattenInit i).map Prod.fst) inits

/-- All procedures placed anywhere in the trees of a collection of
initializers. -/
def allProcs (inits : List InitEntry) : List Procedure :=
  catMap (fun i => (flattenInit i).map Prod.snd) inits

/-- The flattened paths still to be produced by a walk stack. -/
def stackPaths (stack : List (String × PTree)) : List String :=
  catMap (fun e => (flattenTree e.1 e.2).map Prod.fst) stack

/-- The procedures still to be visited by a walk stack. -/
def stackProcs (stack : List (String × PTree)) : List Procedure :=
  catMap (fun e => (flattenTree e.1 e.2).map Prod.snd) stack

/-! ## HTTP input parsing (the body-parsing prefix of the per-route
handler, src/ultra.ts lines 365-401) -/

/-- The decoded views of a request's body stream: what `request.json()`,
`request.text()` and `request.formData()` would each return.  A request
whose `body` is `none` is a request with a `null` body (every body-less
request, in particular ordinary GET requests). -/
structure RawBody : Type where
  asJson : JSVal
  asText : String
  asForm : JSVal

/-- The parts of an incoming request the parsing prefix reads.  Header
lookup is modelled as exact-name association (`Headers.get`). -/
structure HTTPRequest : Type where
  method : String
  url : String
  headers : List (String × String)
  body : Option RawBody

/-- What ends up in `input` when the compiled handler is invoked. -/
inductive ParsedInput : Type where
  /-- `request.body` was `null` and `input` kept that value -/
  | rawNull
  /-- the unparsed body stream -/
  | rawStream (b : RawBody)
  /-- `Object.fromEntries(new URLSearchParams(...).entries())` -/
  | queryParams (fields : List (String × String))
  /-- `await request.json()` -/
  | jsonBody (v : JSVal)
  /-- `await request.text()` -/
  | textBody (s : String)
  /-- `await request.formData()` -/
  | formDataBody (v : JSVal)

/-- `pat.isPrefixOf`-style check written out: does `l` start with `pre`? -/
def leadsWith {α : Type} [DecidableEq α] : List α → List α → Bool
  | [], _ => true
  | _ :: _, [] => false
  | a :: t, b :: u => decide (a = b) && leadsWith t u

/-- `s.startsWith(pre)` on strings. -/
def strLeads (s pre : String) : Bool :=
  leadsWith pre.toList s.toList

/-- Does `hay` contain `needle` as a contiguous substring? -/
def containsSeq {α : Type} [DecidableEq α] (needle : List α) : List α → Bool
  | [] => leadsWith needle []
  | a :: t => leadsWith needle (a :: t) || containsSeq needle t

/-- `hay.includes(pat)` on strings. -/
def containsSub (hay pat : String) : Bool :=
  containsSeq pat.toList hay.toList

/-- `url.indexOf('?')` on the character list, with the JavaScript `-1`
absent marker replaced by the list's length (the conditions below compare
against the length, which is equivalent). -/
def idxOfChar (c : Char) : List Char → Nat
  | [] => 0
  | a :: t => if a = c then 0 else idxOfChar c t + 1

/-- One `key=value` part of a query string: split at the first `=`
(no `=` means an empty value), as `URLSearchParams` does.  Percent-decoding
is not modelled (no claim depends on it). -/
def queryPart (part : String) : String × String :=
  let cs := part.toList
  (String.mk (cs.takeWhile (fun ch => decide (ch ≠ '='))),
   String.mk ((cs.dropWhile (fun ch => decide (ch ≠ '='))).drop 1))

/-- Split a character list at every occurrence of the separator (the
semantics of `String.splitOn` with a one-character separator). -/
def splitOnChar (c : Char) : List Char → List (List Char)
  | [] => [[]]
  | a :: t =>
    let r := splitOnChar c t
    if a = c then [] :: r
    else
      match r with
      | [] => [[a]]
      | h :: rest => (a :: h) :: rest

/-- `Object.fromEntries(new URLSearchParams(s).entries())`: split on `&`,
drop empty parts, split each part at its first `=`, and build the object
(a later duplicate key overwrites the earlier one). -/
def parseQuery (s : String) : List (String × String) :=
  objAssign []
    ((((splitOnChar '&' s.toList).map String.mk).filter (fun q => !q.isEmpty)).map queryPart)

/-- The input-parsing prefix of the compiled HTTP route handler
(src/ultra.ts lines 368-401).  `input` starts as `request.body`; parsing
only happens at all when that body is non-null ("`if (input)`").  A GET
request parses the query string (when the URL has a `?` that is not its
last character); other methods decode the body by `Content-Type` when
`Content-Length` is not `'0'`; an unrecognised `Content-Type` logs an
error (the boolean flag) and leaves the input unparsed. -/
def parseInput (request : HTTPRequest) : ParsedInput × Bool :=
  match request.body with
  | none => (.rawNull, false)
  | some raw =>
    if request.method = "GET" then
      let cs := request.url.toList
      let query := idxOfChar '?' cs
      if query ≠ cs.length ∧ query < cs.length - 1 then
        (.queryParams (parseQuery (String.mk (cs.drop (query + 1)))), false)
      else (.rawStream raw, false)
    else
      if lookupKey request.headers "Content-Length" ≠ some "0" then
        match lookupKey request.headers "Content-Type" with
        | some t =>
          if strLeads t "application/json" then (.jsonBody raw.asJson, false)
          else if strLeads t "text" then (.textBody raw.asText, false)
          else if strLeads t "multipart/form-data" then (.formDataBody raw.asForm, false)
          else (.rawStream raw, true)
        | none => (.rawStream raw, false)
      else (.rawStream raw, false)

/-! ## Concrete instances used by witnesses and counterexamples -/

/-- A two-step derivation list: a static record, then a function reading
the context enriched by the first step. -/
def exampleSteps : List DeriveStep :=
  [⟨7, .staticv [("auth", .bool true)]⟩,
   ⟨8, .derivef (fun c =>
      [("role", .str (match lookupKey c "auth" with
        | some (.bool true) => "admin"
        | _ => "guest"))])⟩]

/-- A schema accepting anything, tagging the value as validated. -/
def exInputSchema : SchemaF := fun _ => .value (.str "validated")

/-- A schema rejecting everything. -/
def exRejectSchema : SchemaF := fun _ => .issues ["bad output"]

/-- An echo handler. -/
def exEchoHandler : Handler := fun options => .ok options.input

/-- A procedure with both schemas and a handler. -/
def exProcedure : Procedure :=
  { inputSchema := some exInputSchema
    outputSchema := some exRejectSchema
    handlerFunction := some exEchoHandler
    middlewares := []
    httpOptions := none }

/-- A procedure on which no handler was set. -/
def exNoHandlerProcedure : Procedure :=
  { inputSchema := none
    outputSchema := none
    handlerFunction := none
    middlewares := []
    httpOptions := none }

/-- A procedure with only a handler. -/
def exPlainProcedure : Procedure :=
  { inputSchema := none
    outputSchema := none
    handlerFunction := some exEchoHandler
    middlewares := []
    httpOptions := none }

/-- The claim's transitive-incorporation scenario: `a.use(b)` followed by
`a.use(c')` where `c' = c.use(b)` also incorporates `b`. -/
def incorporateTwice (a b c : UltraDecls) : UltraDecls :=
  use (use a (.module b)) (.module (use c (.module b)))

/-- Example module A: its own initializer, and the same logger middleware
`6` that B also registers. -/
def exModA : UltraDecls :=
  { initializers := [(2, [])]
    middlewares := [6]
    derived := []
    derivedUpgrade := []
    events := [] }

/-- Example module B: one initializer with scoped middleware, one global
middleware, one derivation step of each kind, one error listener. -/
def exModB : UltraDecls :=
  { initializers := [(1, [5])]
    middlewares := [6]
    derived := [7]
    derivedUpgrade := [8]
    events := [("error", [9])] }

/-- Example module C, which also incorporates B in the scenario. -/
def exModC : UltraDecls :=
  { initializers := []
    middlewares := [10]
    derived := []
    derivedUpgrade := []
    events := [("error", [11])] }

/-- Two initializers that both register the path `"dup"`. -/
def exDupInits : List InitEntry :=
  [⟨[], [("dup", .leaf exPlainProcedure)]⟩,
   ⟨[], [("dup", .leaf exPlainProcedure)]⟩]

end Ultra

namespace Ultra

/-! ## Lemmas about the collection primitives -/

theorem mem_insertUniq {α : Type} [DecidableEq α] (l : List α) (x y : α) :
    y ∈ insertUniq l x ↔ y ∈ l ∨ y = x := by
  unfold insertUniq
  split
  · rename_i hx
    constructor
    · exact fun h => Or.inl h
    · rintro (h | rfl)
      · exact h
      · exact hx
  · simp

theorem insertUniq_of_mem {α : Type} [DecidableEq α] {l : List α} {x : α} (h : x ∈ l) :
    insertUniq l x = l := by
  simp [insertUniq, h]

theorem nodup_insertUniq {α : Type} [DecidableEq α] {l : List α} (h : l.Nodup) (x : α) :
    (insertUniq l x).Nodup := by
  unfold insertUniq
  split
  · exact h
  · simpa [List.nodup_append] using ⟨h, by assumption⟩

theorem mem_addAll {α : Type} [DecidableEq α] (s xs : List α) (y : α) :
    y ∈ addAll s xs ↔ y ∈ s ∨ y ∈ xs := by
  induction xs generalizing s with
  | nil => simp [addAll]
  | cons a t ih =>
    simp only [addAll, List.foldl_cons] at *
    rw [ih (insertUniq s a)]
    rw [mem_insertUniq]
    simp
    tauto

theorem addAll_of_subset {α : Type} [DecidableEq α] {s xs : List α} (h : ∀ x ∈ xs, x ∈ s) :
    addAll s xs = s := by
  induction xs generalizing s with
  | nil => rfl
  | cons a t ih =>
    simp only [addAll, List.foldl_cons]
    rw [insertUniq_of_mem (h a (by simp))]
    exact ih (fun x hx => h x (by simp [hx]))

theorem nodup_addAll {α : Type} [DecidableEq α] {s : List α} (h : s.Nodup) (xs : List α) :
    (addAll s xs).Nodup := by
  induction xs generalizing s with
  | nil => exact h
  | cons a t ih => exact ih (nodup_insertUniq h a)

theorem nodup_jsSetOfList {α : Type} [DecidableEq α] (xs : List α) :
    (jsSetOfList xs).Nodup :=
  nodup_addAll List.nodup_nil xs

theorem mem_jsSetOfList {α : Type} [DecidableEq α] (xs : List α) (y : α) :
    y ∈ jsSetOfList xs ↔ y ∈ xs := by
  simp [jsSetOfList, mem_addAll]

theorem addAll_eq_append_firstOccur {α : Type} [DecidableEq α] (xs s : List α) :
    addAll s xs = s ++ firstOccur (xs.filter (fun b => decide (b ∉ s))) := by
  induction xs generalizing s with
  | nil => simp [addAll, firstOccur]
  | cons a t ih =>
    by_cases ha : a ∈ s
    · have hstep : addAll s (a :: t) = addAll s t := by
        simp [addAll, insertUniq_of_mem ha]
      rw [hstep, ih s]
      have : (a :: t).filter (fun b => decide (b ∉ s)) = t.filter (fun b => decide (b ∉ s)) := by
        simp [List.filter_cons, ha]
      rw [this]
    · have hstep : addAll s (a :: t) = addAll (s ++ [a]) t := by
        simp [addAll, insertUniq, ha]
      rw [hstep, ih (s ++ [a])]
      have hfc : (a :: t).filter (fun b => decide (b ∉ s)) =
          a :: t.filter (fun b => decide (b ∉ s)) := by
        simp [List.filter_cons, ha]
      have hff : t.filter (fun b => decide (b ∉ s ++ [a])) =
          (t.filter (fun b => decide (b ∉ s))).filter (fun b => decide (b ≠ a)) := by
        rw [List.filter_filter]
        apply List.filter_congr
        intro x _
        by_cases hx : x = a <;> by_cases hxs : x ∈ s <;> simp [hx, hxs]
      rw [hfc, firstOccur, ← hff]
      simp

theorem jsSetOfList_eq_firstOccur {α : Type} [DecidableEq α] (xs : List α) :
    jsSetOfList xs = firstOccur xs := by
  have h := addAll_eq_append_firstOccur xs ([] : List α)
  simpa [jsSetOfList] using h

theorem jsSetOfList_of_nodup {α : Type} [DecidableEq α] {xs : List α} (h : xs.Nodup) :
    jsSetOfList xs = xs := by
  induction xs with
  | nil => rfl
  | cons a t ih =>
    have ha : a ∉ t := (List.nodup_cons.mp h).1
    rw [jsSetOfList_eq_firstOccur] at *
    rw [firstOccur]
    have : t.filter (fun b => decide (b ≠ a)) = t := by
      apply List.filter_eq_self.mpr
      intro x hx
      simp
      rintro rfl
      exact ha hx
    rw [this, ih (List.nodup_cons.mp h).2]

theorem mem_firstOccur {α : Type} [DecidableEq α] (xs : List α) (y : α) :
    y ∈ firstOccur xs ↔ y ∈ xs := by
  rw [← jsSetOfList_eq_firstOccur]
  exact mem_jsSetOfList xs y

theorem nodup_firstOccur {α : Type} [DecidableEq α] (xs : List α) :
    (firstOccur xs).Nodup := by
  rw [← jsSetOfList_eq_firstOccur]
  exact nodup_jsSetOfList xs

/-! ## Lemmas about middleware chain traces -/

theorem chainNext_eq (mws : List MWId) (idx : Nat) :
    chainNext mws idx =
      ((mws.drop idx).map .call) ++ [.handled] ++ ((mws.drop idx).reverse.map .ret) := by
  induction idx using chainNext.induct mws with
  | case1 idx h ih =>
    rw [chainNext, dif_pos h, ih, List.drop_eq_getElem_cons h]
    simp only [List.map_cons, List.reverse_cons, List.map_append, List.cons_append,
      List.append_assoc, List.nil_append, List.map_nil]
  | case2 idx h =>
    rw [chainNext, dif_neg h, List.drop_eq_nil_of_le (Nat.le_of_not_lt h)]
    simp

theorem wrapHandler_eq (mws : List MWId) :
    wrapHandler mws = (mws.map .call) ++ [.handled] ++ (mws.reverse.map .ret) := by
  unfold wrapHandler
  split
  · rename_i h
    rw [List.length_eq_zero.mp h]
    simp
  · rw [chainNext_eq]
    simp

theorem wrapOwn_eq (ownMws : List MWId) (inner : List MWEvent) :
    wrapOwn ownMws inner = (ownMws.map .call) ++ inner ++ (ownMws.reverse.map .ret) := by
  induction ownMws with
  | nil => simp [wrapOwn]
  | cons a t ih =>
    simp only [wrapOwn, List.foldr_cons] at *
    rw [ih]
    simp

theorem count_call_wrapHandler (mws : List MWId) (m : MWId) :
    (wrapHandler mws).count (.call m) = mws.count m := by
  rw [wrapHandler_eq]
  have hinj : Function.Injective MWEvent.call := by
    intro a b h
    cases h
    rfl
  have h1 : (mws.map MWEvent.call).count (.call m) = mws.count m :=
    List.count_map_of_injective _ _ hinj _
  have h2 : ([MWEvent.handled] : List MWEvent).count (.call m) = 0 := by
    simp [List.count_eq_zero]
  have h3 : (mws.reverse.map MWEvent.ret).count (.call m) = 0 := by
    rw [List.count_eq_zero]
    intro hmem
    rcases List.mem_map.mp hmem with ⟨x, _, hx⟩
    cases hx
  rw [List.count_append, List.count_append, h1, h2, h3]
  omega

theorem count_le_one_of_nodup {α : Type} [DecidableEq α] {l : List α} (h : l.Nodup) (a : α) :
    l.count a ≤ 1 :=
  List.nodup_iff_count_le_one.mp h a

/-! ## Claims C3, C5, C10: middleware composition order and deduplication -/

/-- C3: composing a chain `[m1, m2, m3]` around a handler executes
`m1`-enter, `m2`-enter, `m3`-enter, handler, `m3`-exit, `m2`-exit,
`m1`-exit — first registered is outermost and runs first — and the
effective chain of an operation is the concatenation of global, then
initializer-scoped, then operation-scoped middleware (registration order
preserved within each group), the same composition (`wrapHandler`) serving
all three populations. -/
theorem middleware_chain_order (m1 m2 m3 : MWId) (g s o : List MWId)
    (h : (g ++ s ++ o).Nodup) :
    wrapHandler [m1, m2, m3] =
      [.call m1, .call m2, .call m3, .handled, .ret m3, .ret m2, .ret m1]
    ∧ effectiveMiddlewares g s o = g ++ s ++ o
    ∧ wrapHandler (effectiveMiddlewares g s o) =
        ((g ++ s ++ o).map .call) ++ [.handled] ++ ((g ++ s ++ o).reverse.map .ret) := by
  have heff : effectiveMiddlewares g s o = g ++ s ++ o := by
    unfold effectiveMiddlewares
    exact jsSetOfList_of_nodup h
  refine ⟨?_, heff, ?_⟩
  · rw [wrapHandler_eq]
    rfl
  · rw [heff, wrapHandler_eq]

/-- Witness for `middleware_chain_order` at `m1, m2, m3 = 1, 2, 3`,
`g = [10]`, `s = [20]`, `o = [30]`. -/
theorem middleware_chain_order_witness :
    ([10] ++ [20] ++ [30] : List MWId).Nodup ∧
      wrapHandler [1, 2, 3] =
        [.call 1, .call 2, .call 3, .handled, .ret 3, .ret 2, .ret 1] :=
  ⟨by decide, (middleware_chain_order 1 2 3 [10] [20] [30] (by decide)).1⟩

/-- C5 counterexample: with module-level middleware `9` and the
operation's own middleware registered in the order `4`, then `5`, the
composed chain enters `4` before `5` — the FIRST registered of the
operation's own middleware is outermost among them, not the last, in both
the `Ultra.build`/`wrapHandler` composition and the `Procedure.wrap`
fold.  The claim's predicted traces (with `5` outermost) are refuted. -/
theorem own_middleware_counterexample :
    wrapHandler (effectiveMiddlewares [9] [] [4, 5]) =
      [.call 9, .call 4, .call 5, .handled, .ret 5, .ret 4, .ret 9]
    ∧ wrapHandler (effectiveMiddlewares [9] [] [4, 5]) ≠
      [.call 9, .call 5, .call 4, .handled, .ret 4, .ret 5, .ret 9]
    ∧ wrapOwn [4, 5] [.handled] = [.call 4, .call 5, .handled, .ret 5, .ret 4]
    ∧ wrapOwn [4, 5] [.handled] ≠ [.call 5, .call 4, .handled, .ret 4, .ret 5] := by
  have heq : wrapHandler (effectiveMiddlewares [9] [] [4, 5]) =
      [.call 9, .call 4, .call 5, .handled, .ret 5, .ret 4, .ret 9] := by
    rw [wrapHandler_eq]
    rfl
  refine ⟨heq, ?_, by rw [wrapOwn_eq]; rfl, ?_⟩
  · rw [heq]
    decide
  · rw [wrapOwn_eq]
    decide

/-- C5 amended: among the operation's own middleware the FIRST registered
wraps outermost (runs first within that group), while module-level
(global and initializer-scoped) middleware still wraps outside all of the
operation's own middleware; `Procedure.wrap`'s reverse-iteration fold has
the same first-registered-outermost shape. -/
theorem own_middleware_first_outermost (g s : List MWId) (m : MWId) (rest : List MWId)
    (h : (g ++ s ++ (m :: rest)).Nodup) :
    wrapHandler (effectiveMiddlewares g s (m :: rest)) =
      (g ++ s).map .call ++ [.call m] ++ rest.map .call ++ [.handled]
        ++ rest.reverse.map .ret ++ [.ret m] ++ ((g ++ s).reverse.map .ret)
    ∧ ∀ (own : List MWId) (inner : List MWEvent),
        wrapOwn own inner = own.map .call ++ inner ++ own.reverse.map .ret := by
  constructor
  · rw [effectiveMiddlewares, jsSetOfList_of_nodup h, wrapHandler_eq]
    simp [List.reverse_append]
  · exact wrapOwn_eq

/-- Witness for `own_middleware_first_outermost` at `g = [1]`, `s = [2]`,
own middleware `3` then `4`. -/
theorem own_middleware_first_outermost_witness :
    ([1] ++ [2] ++ (3 :: [4]) : List MWId).Nodup ∧
      wrapHandler (effectiveMiddlewares [1] [2] (3 :: [4])) =
        ([1] ++ [2]).map .call ++ [.call 3] ++ [(4 : MWId)].map .call ++ [.handled]
          ++ [(4 : MWId)].reverse.map .ret ++ [.ret 3] ++ (([1] ++ [2]).reverse.map .ret) :=
  ⟨by decide, (own_middleware_first_outermost [1] [2] 3 [4] (by decide)).1⟩

/-- C10: the effective middleware of an operation is collected into a
`Set` before composition, so a middleware appearing in several populations
(or several times in one) is kept only at its first-registered position
(`firstOccur`), executes at most once per invocation, and composing with
the duplicated list is identical to composing with each distinct function
once. -/
theorem middleware_set_dedup (g s o : List MWId) :
    effectiveMiddlewares g s o = firstOccur (g ++ s ++ o)
    ∧ wrapHandler (effectiveMiddlewares g s o) =
        ((firstOccur (g ++ s ++ o)).map .call) ++ [.handled]
          ++ ((firstOccur (g ++ s ++ o)).reverse.map .ret)
    ∧ (∀ m : MWId, (wrapHandler (effectiveMiddlewares g s o)).count (.call m) ≤ 1)
    ∧ (∀ m : MWId, m ∈ effectiveMiddlewares g s o ↔ m ∈ g ++ s ++ o) := by
  have heq : effectiveMiddlewares g s o = firstOccur (g ++ s ++ o) :=
    jsSetOfList_eq_firstOccur _
  refine ⟨heq, ?_, ?_, ?_⟩
  · rw [heq, wrapHandler_eq]
  · intro m
    rw [count_call_wrapHandler]
    exact count_le_one_of_nodup (nodup_jsSetOfList _) m
  · intro m
    exact mem_jsSetOfList _ m

/-! ## Association-object lemmas (property assignment and lookup) -/

theorem lookupKey_cons {κ β : Type} [DecidableEq κ] (k₀ : κ) (v₀ : β)
    (t : List (κ × β)) (k : κ) :
    lookupKey ((k₀, v₀) :: t) k = if k₀ = k then some v₀ else lookupKey t k := rfl

theorem lookupKey_mapUpdate {κ β : Type} [DecidableEq κ] (m : List (κ × β)) (k k' : κ) (v : β) :
    lookupKey (m.map (fun p => if p.1 = k then (k, v) else p)) k' =
      if k' = k then (if (lookupKey m k).isSome then some v else none)
      else lookupKey m k' := by
  induction m with
  | nil => by_cases h : k' = k <;> simp [lookupKey, h]
  | cons p t ih =>
    obtain ⟨k₀, v₀⟩ := p
    simp only [List.map_cons]
    have hent : (if ((k₀, v₀) : κ × β).1 = k then (k, v) else (k₀, v₀)) =
        if k₀ = k then (k, v) else (k₀, v₀) := rfl
    rw [hent]
    by_cases h0 : k₀ = k
    · subst h0
      rw [if_pos rfl]
      simp only [lookupKey_cons]
      by_cases h1 : k' = k₀
      · subst h1
        simp [ih]
      · have h1' : ¬ k₀ = k' := fun heq => h1 heq.symm
        simp only [if_neg h1, if_neg h1']
        rw [ih, if_neg h1]
    · rw [if_neg h0]
      simp only [lookupKey_cons, if_neg h0]
      by_cases h2 : k₀ = k'
      · subst h2
        simp [h0]
      · simp only [if_neg h2]
        exact ih

theorem lookupKey_append_single {κ β : Type} [DecidableEq κ] (m : List (κ × β)) (k k' : κ) (v : β) :
    lookupKey (m ++ [(k, v)]) k' =
      match lookupKey m k' with
      | some w => some w
      | none => if k = k' then some v else none := by
  induction m with
  | nil => simp [lookupKey]
  | cons p t ih =>
    obtain ⟨k₀, v₀⟩ := p
    by_cases h : k₀ = k' <;> simp [lookupKey, h, ih]

theorem lookupKey_setKey {κ β : Type} [DecidableEq κ] (m : List (κ × β)) (k k' : κ) (v : β) :
    lookupKey (setKey m k v) k' = if k' = k then some v else lookupKey m k' := by
  unfold setKey
  split
  · rename_i hsome
    rw [lookupKey_mapUpdate]
    by_cases h : k' = k <;> simp [h, hsome]
  · rename_i hnone
    rw [lookupKey_append_single]
    by_cases h : k' = k
    · subst h
      rw [Option.not_isSome_iff_eq_none] at hnone
      simp [hnone]
    · have h' : ¬ k = k' := fun heq => h heq.symm
      cases hm : lookupKey m k' with
      | some w => simp [h]
      | none => simp [h, h']

theorem lookupKey_objAssign {κ β : Type} [DecidableEq κ]
    (c : List (κ × β)) (upd : List (κ × β)) (k : κ) :
    lookupKey (objAssign c upd) k = (lookupKey upd.reverse k).or (lookupKey c k) := by
  induction upd using List.reverseRecOn generalizing c with
  | nil => simp [objAssign, lookupKey]
  | append_singleton xs p ih =>
    obtain ⟨pk, pv⟩ := p
    have hfold : objAssign c (xs ++ [(pk, pv)]) = setKey (objAssign c xs) pk pv := by
      simp [objAssign, List.foldl_append]
    rw [hfold, lookupKey_setKey, List.reverse_append]
    simp only [List.reverse_singleton, List.singleton_append, lookupKey_cons]
    by_cases h : k = pk
    · subst h
      simp
    · have h' : ¬ pk = k := fun heq => h heq.symm
      simp only [if_neg h, if_neg h']
      exact ih c

/-! ## Claim C6: sequential context enrichment -/

theorem enrichContext_trace (derived : List DeriveStep) (context : Ctx) :
    (enrichContext derived context).2 = derived.map (fun d => d.id) := by
  suffices h : ∀ (ds : List DeriveStep) (c : Ctx) (tr : List Nat),
      (ds.foldl
        (fun acc d => (objAssign acc.1 (applyDerive acc.1 d.value), acc.2 ++ [d.id]))
        (c, tr)).2 = tr ++ ds.map (fun d => d.id) by
    simpa [enrichContext] using h derived context []
  intro ds
  induction ds with
  | nil => simp
  | cons d t ih =>
    intro c tr
    simp only [List.foldl_cons, List.map_cons]
    rw [ih]
    simp

/-- C6: on every invocation the registered context-derivation steps run
exactly once each, sequentially in registration order (the execution trace
is literally the registration-ordered list of step identities); appending
a step makes it observe the context enriched by all earlier steps
(shallow-merged by `Object.assign`); and a key written by an earlier step
is visible to everything that runs later unless a later step overwrote
that same key. -/
theorem derive_sequential_enrichment (derived : List DeriveStep) (context : Ctx) :
    (enrichContext derived context).2 = derived.map (fun d => d.id)
    ∧ (∀ (ds : List DeriveStep) (d : DeriveStep),
        enrichContext (ds ++ [d]) context =
          (objAssign (enrichContext ds context).1
             (applyDerive (enrichContext ds context).1 d.value),
           (enrichContext ds context).2 ++ [d.id]))
    ∧ (∀ (c : Ctx) (upd : List (String × JSVal)) (k : String),
        lookupKey (objAssign c upd) k = (lookupKey upd.reverse k).or (lookupKey c k))
    ∧ ((derived.map (fun d => d.id)).Nodup →
        ∀ d ∈ derived, ((enrichContext derived context).2).count d.id = 1) := by
  refine ⟨enrichContext_trace derived context, ?_, ?_, ?_⟩
  · intro ds d
    simp [enrichContext, List.foldl_append]
  · intro c upd k
    exact lookupKey_objAssign c upd k
  · intro hnodup d hd
    rw [enrichContext_trace]
    exact List.count_eq_one_of_mem hnodup (List.mem_map.mpr ⟨d, hd, rfl⟩)

/-- Witness for `derive_sequential_enrichment` on `exampleSteps` (a static
`{auth: true}` step followed by a function step reading `auth`): both steps
run exactly once. -/
theorem derive_sequential_enrichment_witness :
    ((exampleSteps.map (fun d => d.id)).Nodup)
    ∧ ((enrichContext exampleSteps []).2).count 7 = 1 := by
  have hnodup : (exampleSteps.map (fun d => d.id)).Nodup := by
    unfold exampleSteps
    simp
  refine ⟨hnodup, ?_⟩
  have hmem : (⟨7, .staticv [("auth", .bool true)]⟩ : DeriveStep) ∈ exampleSteps := by
    unfold exampleSteps
    exact List.mem_cons_self _ _
  exact (derive_sequential_enrichment exampleSteps []).2.2.2 hnodup _ hmem

/-! ## Map-merge lemmas (`Ultra.merge` dedup behaviour) -/

theorem lookupKey_none_iff {κ β : Type} [DecidableEq κ] (m : List (κ × β)) (k : κ) :
    lookupKey m k = none ↔ k ∉ m.map Prod.fst := by
  induction m with
  | nil => simp [lookupKey]
  | cons p t ih =>
    obtain ⟨k₀, v₀⟩ := p
    rw [lookupKey_cons, List.map_cons]
    by_cases h : k₀ = k
    · subst h
      simp
    · rw [if_neg h, ih]
      constructor
      · intro hk hmem
        rcases List.mem_cons.mp hmem with heq | htail
        · exact h heq.symm
        · exact hk htail
      · intro hk hmem
        exact hk (List.mem_cons_of_mem _ hmem)

theorem lookupKey_mem {κ β : Type} [DecidableEq κ] {m : List (κ × β)} {k : κ} {w : β}
    (h : lookupKey m k = some w) : (k, w) ∈ m := by
  induction m with
  | nil => cases h
  | cons p t ih =>
    obtain ⟨k₀, v₀⟩ := p
    rw [lookupKey_cons] at h
    by_cases h0 : k₀ = k
    · rw [if_pos h0] at h
      cases h
      subst h0
      exact List.mem_cons_self _ _
    · rw [if_neg h0] at h
      exact List.mem_cons_of_mem _ (ih h)

theorem lookupKey_of_mem_nodupKeys {κ β : Type} [DecidableEq κ] {m : List (κ × β)} {k : κ} {w : β}
    (hnd : (m.map Prod.fst).Nodup) (hmem : (k, w) ∈ m) : lookupKey m k = some w := by
  induction m with
  | nil => cases hmem
  | cons p t ih =>
    obtain ⟨k₀, v₀⟩ := p
    rw [List.map_cons, List.nodup_cons] at hnd
    rcases List.mem_cons.mp hmem with heq | htail
    · cases heq
      rw [lookupKey_cons, if_pos rfl]
    · have hk : k ∈ t.map Prod.fst := List.mem_map.mpr ⟨(k, w), htail, rfl⟩
      have h0 : ¬ k₀ = k := fun heq => hnd.1 (heq ▸ hk)
      rw [lookupKey_cons, if_neg h0]
      exact ih hnd.2 htail

theorem keys_updateKey {κ : Type} [DecidableEq κ] (m : List (κ × List Nat)) (k : κ)
    (f : List Nat → List Nat) : (updateKey m k f).map Prod.fst = m.map Prod.fst := by
  unfold updateKey
  rw [List.map_map]
  apply List.map_congr_left
  intro p _
  by_cases h : p.1 = k <;> simp [h]

theorem lookupKey_updateKey {κ : Type} [DecidableEq κ] (m : List (κ × List Nat)) (k k' : κ)
    (f : List Nat → List Nat) :
    lookupKey (updateKey m k f) k' =
      if k' = k then (lookupKey m k).map f else lookupKey m k' := by
  induction m with
  | nil => by_cases h : k' = k <;> simp [updateKey, lookupKey, h]
  | cons p t ih =>
    obtain ⟨k₀, v₀⟩ := p
    have hstep : updateKey ((k₀, v₀) :: t) k f =
        (if k₀ = k then (k₀, f v₀) else (k₀, v₀)) :: updateKey t k f := rfl
    rw [hstep]
    by_cases h0 : k₀ = k
    · subst h0
      rw [if_pos rfl]
      simp only [lookupKey_cons]
      by_cases h1 : k' = k₀
      · subst h1
        simp
      · have h1' : ¬ k₀ = k' := fun heq => h1 heq.symm
        simp only [if_neg h1, if_neg h1']
        rw [ih, if_neg h1]
    · rw [if_neg h0]
      simp only [lookupKey_cons]
      by_cases h2 : k₀ = k'
      · subst h2
        simp [h0]
      · simp only [if_neg h2]
        rw [ih]
        simp [h0]

theorem values_nodup_updateKey {κ : Type} [DecidableEq κ] {m : List (κ × List Nat)} {k : κ}
    {f : List Nat → List Nat} (hv : ∀ e ∈ m, e.2.Nodup)
    (hf : ∀ l : List Nat, l.Nodup → (f l).Nodup) :
    ∀ e ∈ updateKey m k f, e.2.Nodup := by
  intro e he
  unfold updateKey at he
  rcases List.mem_map.mp he with ⟨p, hp, hpe⟩
  by_cases h : p.1 = k
  · rw [if_pos h] at hpe
    subst hpe
    exact hf _ (hv p hp)
  · rw [if_neg h] at hpe
    subst hpe
    exact hv p hp

theorem WFMap_mergeMapStep {κ : Type} [DecidableEq κ] {acc : List (κ × List Nat)}
    (hwf : WFMap acc) (e : κ × List Nat) : WFMap (mergeMapStep acc e) := by
  unfold mergeMapStep
  cases hl : lookupKey acc e.1 with
  | none =>
    constructor
    · rw [List.map_append]
      simp only [List.map_cons, List.map_nil]
      rw [List.nodup_append]
      refine ⟨hwf.1, List.nodup_singleton _, ?_⟩
      intro x hx hx'
      rcases List.mem_singleton.mp hx' with rfl
      exact (lookupKey_none_iff acc e.1).mp hl hx
    · intro q hq
      rcases List.mem_append.mp hq with hq | hq
      · exact hwf.2 q hq
      · rcases List.mem_singleton.mp hq with rfl
        exact nodup_jsSetOfList _
  | some w =>
    constructor
    · rw [keys_updateKey]
      exact hwf.1
    · exact values_nodup_updateKey hwf.2 (fun l hl => nodup_addAll hl _)

theorem WFMap_mergeMap {κ : Type} [DecidableEq κ] {m : List (κ × List Nat)}
    (hwf : WFMap m) (other : List (κ × List Nat)) : WFMap (mergeMap m other) := by
  induction other generalizing m with
  | nil => exact hwf
  | cons e t ih =>
    show WFMap (mergeMap (mergeMapStep m e) t)
    exact ih (WFMap_mergeMapStep hwf e)

/-- `SubAt m k v`: the map stores under `k` a set containing all of `v`. -/
def SubAt {κ : Type} [DecidableEq κ] (m : List (κ × List Nat)) (k : κ) (v : List Nat) : Prop :=
  ∃ w, lookupKey m k = some w ∧ ∀ x ∈ v, x ∈ w

theorem SubAt_mergeMapStep_self {κ : Type} [DecidableEq κ] (acc : List (κ × List Nat))
    (e : κ × List Nat) : SubAt (mergeMapStep acc e) e.1 e.2 := by
  unfold mergeMapStep
  cases hl : lookupKey acc e.1 with
  | none =>
    refine ⟨jsSetOfList e.2, ?_, fun x hx => (mem_jsSetOfList _ _).mpr hx⟩
    rw [lookupKey_append_single, hl, if_pos rfl]
  | some w =>
    refine ⟨addAll w e.2, ?_, fun x hx => (mem_addAll _ _ _).mpr (Or.inr hx)⟩
    rw [lookupKey_updateKey, if_pos rfl, hl]
    rfl

theorem SubAt_mergeMapStep_mono {κ : Type} [DecidableEq κ] {acc : List (κ × List Nat)}
    {k : κ} {v : List Nat} (h : SubAt acc k v) (e : κ × List Nat) :
    SubAt (mergeMapStep acc e) k v := by
  obtain ⟨w, hw, hsub⟩ := h
  unfold mergeMapStep
  cases hl : lookupKey acc e.1 with
  | none =>
    refine ⟨w, ?_, hsub⟩
    rw [lookupKey_append_single, hw]
  | some w' =>
    by_cases hk : k = e.1
    · subst hk
      rw [hw] at hl
      cases hl
      refine ⟨addAll w e.2, ?_, fun x hx => (mem_addAll _ _ _).mpr (Or.inl (hsub x hx))⟩
      rw [lookupKey_updateKey, if_pos rfl, hw]
      rfl
    · refine ⟨w, ?_, hsub⟩
      rw [lookupKey_updateKey, if_neg hk, hw]

theorem SubAt_mergeMap_mono {κ : Type} [DecidableEq κ] {m : List (κ × List Nat)}
    {k : κ} {v : List Nat} (h : SubAt m k v) (other : List (κ × List Nat)) :
    SubAt (mergeMap m other) k v := by
  induction other generalizing m with
  | nil => exact h
  | cons e t ih => exact ih (SubAt_mergeMapStep_mono h e)

theorem SubAt_mergeMap {κ : Type} [DecidableEq κ] (m : List (κ × List Nat))
    {other : List (κ × List Nat)} {e : κ × List Nat} (he : e ∈ other) :
    SubAt (mergeMap m other) e.1 e.2 := by
  induction other generalizing m with
  | nil => cases he
  | cons e' t ih =>
    rcases List.mem_cons.mp he with rfl | htail
    · exact SubAt_mergeMap_mono (SubAt_mergeMapStep_self m e) t
    · exact ih (mergeMapStep m e') htail

theorem mergeMapStep_no_op {κ : Type} [DecidableEq κ] {acc : List (κ × List Nat)}
    (hwf : WFMap acc) {k : κ} {v : List Nat} (h : SubAt acc k v) :
    mergeMapStep acc (k, v) = acc := by
  obtain ⟨w, hw, hsub⟩ := h
  unfold mergeMapStep
  rw [hw]
  unfold updateKey
  have : ∀ p ∈ acc, (if p.1 = k then (p.1, addAll p.2 v) else p) = p := by
    intro p hp
    by_cases hpk : p.1 = k
    · rw [if_pos hpk]
      have hpw : p.2 = w := by
        have hlp : lookupKey acc k = some p.2 := by
          have : (k, p.2) ∈ acc := by
            have : p = (p.1, p.2) := rfl
            rw [this, hpk] at hp
            exact hp
          exact lookupKey_of_mem_nodupKeys hwf.1 this
        rw [hw] at hlp
        cases hlp
        rfl
      rw [hpw, addAll_of_subset hsub, ← hpw]
    · rw [if_neg hpk]
  calc acc.map (fun p => if p.1 = k then (p.1, addAll p.2 v) else p)
      = acc.map id := List.map_congr_left this
    _ = acc := List.map_id acc

theorem mergeMap_no_op {κ : Type} [DecidableEq κ] {M : List (κ × List Nat)}
    (hwf : WFMap M) {other : List (κ × List Nat)}
    (h : ∀ e ∈ other, SubAt M e.1 e.2) : mergeMap M other = M := by
  induction other with
  | nil => rfl
  | cons e t ih =>
    have he : mergeMapStep M e = M := by
      have := h e (List.mem_cons_self _ _)
      obtain ⟨k, v⟩ := e
      exact mergeMapStep_no_op hwf this
    show mergeMap (mergeMapStep M e) t = M
    rw [he]
    exact ih (fun e' he' => h e' (List.mem_cons_of_mem _ he'))

theorem mergeMap_idem {κ : Type} [DecidableEq κ] {m : List (κ × List Nat)}
    (hwf : WFMap m) (other : List (κ × List Nat)) :
    mergeMap (mergeMap m other) other = mergeMap m other :=
  mergeMap_no_op (WFMap_mergeMap hwf other)
    (fun _ he => SubAt_mergeMap m he)

theorem addAll_idem {α : Type} [DecidableEq α] (a b : List α) :
    addAll (addAll a b) b = addAll a b :=
  addAll_of_subset (fun x hx => (mem_addAll _ _ _).mpr (Or.inr hx))

/-! ## Claim C1: incorporation is idempotent and deduplicating -/

/-- C1: incorporating module B into A twice — directly twice, or once
directly and once transitively through a third module C that also
incorporates B — contributes each of B's declarations (initializers,
global middleware, context derivations, upgrade derivations, event
listeners) to A exactly once: the second direct incorporation is the
identity, and in the transitive scenario every declaration of B occurs
with multiplicity 1 in the corresponding merged set. -/
theorem use_module_dedup (a b c : UltraDecls) (ha : a.WF) (hb : b.WF) (hc : c.WF) :
    use (use a (.module b)) (.module b) = use a (.module b)
    ∧ (∀ m ∈ b.middlewares, (incorporateTwice a b c).middlewares.count m = 1)
    ∧ (∀ d ∈ b.derived, (incorporateTwice a b c).derived.count d = 1)
    ∧ (∀ d ∈ b.derivedUpgrade, (incorporateTwice a b c).derivedUpgrade.count d = 1)
    ∧ (∀ e ∈ b.initializers,
        ((incorporateTwice a b c).initializers.map Prod.fst).count e.1 = 1)
    ∧ (∀ e ∈ b.events, ∀ x ∈ e.2,
        ∃ w, lookupKey (incorporateTwice a b c).events e.1 = some w ∧ w.count x = 1) := by
  obtain ⟨hamw, had, hau, hai, hae⟩ := ha
  refine ⟨?_, ?_, ?_, ?_, ?_, ?_⟩
  · show merge (merge a b) b = merge a b
    unfold merge
    simp only [UltraDecls.mk.injEq]
    exact ⟨mergeMap_idem hai _, addAll_idem _ _, addAll_idem _ _, addAll_idem _ _,
      mergeMap_idem hae _⟩
  · intro m hm
    apply List.count_eq_one_of_mem
    · exact nodup_addAll (nodup_addAll hamw _) _
    · show m ∈ addAll (addAll a.middlewares b.middlewares) (addAll c.middlewares b.middlewares)
      exact (mem_addAll _ _ _).mpr (Or.inl ((mem_addAll _ _ _).mpr (Or.inr hm)))
  · intro d hd
    apply List.count_eq_one_of_mem
    · exact nodup_addAll (nodup_addAll had _) _
    · exact (mem_addAll _ _ _).mpr (Or.inl ((mem_addAll _ _ _).mpr (Or.inr hd)))
  · intro d hd
    apply List.count_eq_one_of_mem
    · exact nodup_addAll (nodup_addAll hau _) _
    · exact (mem_addAll _ _ _).mpr (Or.inl ((mem_addAll _ _ _).mpr (Or.inr hd)))
  · intro e he
    have hsub : SubAt (incorporateTwice a b c).initializers e.1 e.2 :=
      SubAt_mergeMap_mono (SubAt_mergeMap a.initializers he) _
    obtain ⟨w, hw, _⟩ := hsub
    apply List.count_eq_one_of_mem
    · exact (WFMap_mergeMap (WFMap_mergeMap hai _) _).1
    · have : ¬ (lookupKey (incorporateTwice a b c).initializers e.1 = none) := by
        rw [hw]
        intro hcon
        cases hcon
      rcases Decidable.em (e.1 ∈ (incorporateTwice a b c).initializers.map Prod.fst) with
        hmem | hmem
      · exact hmem
      · exact absurd ((lookupKey_none_iff _ _).mpr hmem) this
  · intro e he x hx
    have hsub : SubAt (incorporateTwice a b c).events e.1 e.2 :=
      SubAt_mergeMap_mono (SubAt_mergeMap a.events he) _
    obtain ⟨w, hw, hsubw⟩ := hsub
    refine ⟨w, hw, ?_⟩
    apply List.count_eq_one_of_mem
    · exact (WFMap_mergeMap (WFMap_mergeMap hae _) _).2 (e.1, w) (lookupKey_mem hw)
    · exact hsubw x hx

/-- Witness for `use_module_dedup` on `exModA`, `exModB`, `exModC`: the
second direct `use` of B is the identity, and B's middleware `6` (also
registered by A itself) is present exactly once after the transitive
double incorporation. -/
theorem use_module_dedup_witness :
    (exModA.WF ∧ exModB.WF ∧ exModC.WF)
    ∧ use (use exModA (.module exModB)) (.module exModB) = use exModA (.module exModB)
    ∧ (incorporateTwice exModA exModB exModC).middlewares.count 6 = 1 := by
  have h := use_module_dedup exModA exModB exModC (by decide) (by decide) (by decide)
  exact ⟨⟨by decide, by decide, by decide⟩, h.1, h.2.1 6 (by decide)⟩

/-! ## Claims C4 and C8: validation wrapping and the missing-handler error -/

theorem validate_error_is_validation_failure (s : SchemaF) (v e : JSVal)
    (h : validate s v = .error e) : isValidationFailure e := by
  unfold validate at h
  cases hs : s v with
  | value w => rw [hs] at h; cases h
  | issues msgs =>
    rw [hs] at h
    cases h
    exact ⟨_, rfl⟩

/-- C4: for a compiled operation with both schemas, input validation runs
before the handler observes the input (the handler receives the validated
value), output validation runs after the handler resolves and before the
caller observes the result, and an output the output schema rejects makes
the whole call fail with a `ValidationFailure` instead of returning the
raw output. -/
theorem compile_validation_order (p : Procedure) (iSchema oSchema : SchemaF) (h : Handler)
    (hi : p.inputSchema = some iSchema) (ho : p.outputSchema = some oSchema)
    (hh : p.handlerFunction = some h) :
    ∃ c, Procedure.compile p = .ok c
      ∧ (∀ options, c options =
          (validate iSchema options.input).bind fun iv =>
            (h { options with input := iv }).bind (validate oSchema))
      ∧ (∀ options iv r e,
          validate iSchema options.input = .ok iv →
          h { options with input := iv } = .ok r →
          validate oSchema r = .error e →
          c options = .error e ∧ isValidationFailure e) := by
  have hc : Procedure.compile p = .ok (fun options =>
      (validate iSchema options.input).bind fun iv =>
        (h { options with input := iv }).bind (validate oSchema)) := by
    unfold Procedure.compile
    rw [hh, hi, ho]
    simp
  refine ⟨_, hc, fun options => rfl, ?_⟩
  intro options iv r e hiv hr he
  constructor
  · show ((validate iSchema options.input).bind fun iv =>
      (h { options with input := iv }).bind (validate oSchema)) = .error e
    rw [hiv]
    show (h { options with input := iv }).bind (validate oSchema) = .error e
    rw [hr]
    show validate oSchema r = .error e
    exact he
  · exact validate_error_is_validation_failure _ _ _ he

/-- Witness for `compile_validation_order` on `exProcedure` (an input
schema tagging its value, an output schema rejecting everything, an echo
handler). -/
theorem compile_validation_order_witness :
    ∃ c, Procedure.compile exProcedure = .ok c
      ∧ (∀ options, c options =
          (validate exInputSchema options.input).bind fun iv =>
            (exEchoHandler { options with input := iv }).bind (validate exRejectSchema))
      ∧ (∀ options iv r e,
          validate exInputSchema options.input = .ok iv →
          exEchoHandler { options with input := iv } = .ok r →
          validate exRejectSchema r = .error e →
          c options = .error e ∧ isValidationFailure e) :=
  compile_validation_order exProcedure exInputSchema exRejectSchema exEchoHandler rfl rfl rfl

/-- C8 counterexample: compiling (via `build`) an operation at path
`"ping"` with no handler does fail eagerly, but the thrown configuration
error's message is the fixed string `Procedure handler is not defined`,
which does not contain the operation's path. -/
theorem missing_handler_counterexample :
    build [] [⟨[], [("ping", .leaf exNoHandlerProcedure)]⟩] = .error .missingHandlerE
    ∧ containsSub (BuildErr.message .missingHandlerE) "ping" = false := by
  constructor
  · simp [build, buildAll, buildGo, lookupKey, Procedure.compile, exNoHandlerProcedure]
  · decide

/-- C8 amended: compiling an operation with no handler fails eagerly —
`Procedure.compile`, called during `build` before any request is served,
throws exactly when the handler is missing (so compilation of an operation
with a handler never raises this error) — but the configuration error does
not contain the operation's path. -/
theorem compile_missing_handler (p : Procedure) :
    (Procedure.compile p = .error .missingHandlerE ↔ p.handlerFunction = none)
    ∧ (p.handlerFunction = none →
        ∀ (globalMws scopedMws : List MWId) (path : String),
          build globalMws [⟨scopedMws, [(path, .leaf p)]⟩] = .error .missingHandlerE) := by
  constructor
  · constructor
    · intro h
      cases hf : p.handlerFunction with
      | none => rfl
      | some f =>
        exfalso
        unfold Procedure.compile at h
        rw [hf] at h
        cases hi : p.inputSchema <;> cases ho : p.outputSchema <;>
          rw [hi, ho] at h <;> simp at h
    · intro h
      unfold Procedure.compile
      rw [h]
  · intro h globalMws scopedMws path
    simp [build, buildAll, buildGo, lookupKey, Procedure.compile, h]

/-- Witness for `compile_missing_handler` on `exNoHandlerProcedure`. -/
theorem compile_missing_handler_witness :
    exNoHandlerProcedure.handlerFunction = none
    ∧ build [] [⟨[], [("x", .leaf exNoHandlerProcedure)]⟩] = .error .missingHandlerE :=
  ⟨rfl, (compile_missing_handler exNoHandlerProcedure).2 rfl [] [] "x"⟩

/-! ## Claim C7: message dispatch envelopes -/

theorem toRPCResponse_id (id : String) (v : JSVal) : (toRPCResponse id v).id = id := by
  cases v <;> rfl

/-- C7 counterexample: a handler that throws the plain value `42` (allowed
in JavaScript) has its exception caught, but the envelope sent is the
success-shaped `{id, result: 42}` — not a structured error envelope as the
claim requires for every throw. -/
theorem rpc_thrown_value_counterexample :
    handleRPC (some (fun _ => .error (.num 42))) ⟨"7", "m", .nullv⟩ [] =
      ⟨"7", .success (.num 42)⟩
    ∧ ∀ (code : Nat) (message : String),
        RpcBody.success (.num 42) ≠ RpcBody.failure code message :=
  ⟨rfl, fun _ _ h => RpcBody.noConfusion h⟩

/-- C7 amended: every dispatch of a valid envelope sends exactly one
response envelope keyed by the request's `id` and no exception escapes
(`handleRPC` is a total conversion): a missing handler sends the
structured 404 not-found error envelope; a handler outcome — its result,
or the exception it threw, which is caught — is converted by
`toRPCResponse`, whose envelope is error-shaped exactly when the value is
an `Error`/`UltraError`/`Response` instance (so a thrown `Error` yields an
error envelope, while a thrown plain value yields the same success-shaped
conversion a result gets). -/
theorem rpc_envelope_keyed (handler : Option Handler) (rpc : Payload) (context : Ctx) :
    (handleRPC handler rpc context).id = rpc.id
    ∧ (handler = none →
        handleRPC handler rpc context = ⟨rpc.id, .failure 404 "Not found"⟩)
    ∧ (∀ h, handler = some h →
        handleRPC handler rpc context =
          toRPCResponse rpc.id
            (match h { input := rpc.params, context := context } with
             | .ok v => v
             | .error e => e))
    ∧ (∀ (idv : String) (v : JSVal),
        (∃ code message, (toRPCResponse idv v).body = .failure code message)
          ↔ isErrorLike v = true) := by
  have hid : (handleRPC handler rpc context).id = rpc.id := by
    cases handler with
    | none => rfl
    | some h =>
      show (match h { input := rpc.params, context := context } with
        | .ok v => toRPCResponse rpc.id v
        | .error e => toRPCResponse rpc.id e).id = rpc.id
      cases h { input := rpc.params, context := context } with
      | ok v => exact toRPCResponse_id _ _
      | error e => exact toRPCResponse_id _ _
  refine ⟨hid, ?_, ?_, ?_⟩
  · rintro rfl
    rfl
  · rintro h rfl
    show (match h { input := rpc.params, context := context } with
      | .ok v => toRPCResponse rpc.id v
      | .error e => toRPCResponse rpc.id e) = _
    cases h { input := rpc.params, context := context } <;> rfl
  · intro idv v
    cases v <;> simp [toRPCResponse, isErrorLike]

/-- Witness for `rpc_envelope_keyed`: an unknown method gets the 404
envelope keyed by the request's id. -/
theorem rpc_envelope_keyed_witness :
    (handleRPC none ⟨"9", "missing", .nullv⟩ []).id = "9"
    ∧ handleRPC none ⟨"9", "missing", .nullv⟩ [] = ⟨"9", .failure 404 "Not found"⟩ :=
  ⟨(rpc_envelope_keyed none ⟨"9", "missing", .nullv⟩ []).1,
   (rpc_envelope_keyed none ⟨"9", "missing", .nullv⟩ []).2.1 rfl⟩

/-! ## Claim C9: method-dependent HTTP input parsing -/

/-- C9 counterexample: a GET request for `/echo?a=1` with a `null` body —
every ordinary GET request — leaves `input` as the `null` body: the
query-string parse branch is guarded by `if (input)` on `request.body`, so
the handler does NOT receive the query-derived object (`{a: "1"}`, which
`parseQuery` would produce). -/
theorem get_query_counterexample :
    parseInput ⟨"GET", "/echo?a=1", [], none⟩ = (.rawNull, false)
    ∧ parseQuery "a=1" = [("a", "1")]
    ∧ ∀ fields, ParsedInput.rawNull ≠ ParsedInput.queryParams fields := by
  refine ⟨rfl, ?_, fun _ h => ParsedInput.noConfusion h⟩
  decide

/-- C9 amended: `input` starts as `request.body` and is parsed only when
that body is non-null; for a GET request with a non-null body whose URL
has a `?` before its last character the handler receives the
query-string-derived object; for non-GET requests with a non-null body and
`Content-Length` other than `'0'` the body is decoded by `Content-Type`
(JSON, then plain text, then multipart, matched by prefix in that order),
and an unrecognised `Content-Type` logs an error and leaves the input
unparsed. -/
theorem parse_input_spec (request : HTTPRequest) :
    (request.body = none → parseInput request = (.rawNull, false))
    ∧ (∀ raw, request.body = some raw → request.method = "GET" →
        (idxOfChar '?' request.url.toList ≠ request.url.toList.length ∧
          idxOfChar '?' request.url.toList < request.url.toList.length - 1) →
        parseInput request =
          (.queryParams (parseQuery (String.mk
            (request.url.toList.drop (idxOfChar '?' request.url.toList + 1)))), false))
    ∧ (∀ raw t, request.body = some raw → ¬ request.method = "GET" →
        lookupKey request.headers "Content-Length" ≠ some "0" →
        lookupKey request.headers "Content-Type" = some t →
        (strLeads t "application/json" = true →
          parseInput request = (.jsonBody raw.asJson, false))
        ∧ (strLeads t "application/json" = false → strLeads t "text" = true →
            parseInput request = (.textBody raw.asText, false))
        ∧ (strLeads t "application/json" = false → strLeads t "text" = false →
            strLeads t "multipart/form-data" = true →
            parseInput request = (.formDataBody raw.asForm, false))
        ∧ (strLeads t "application/json" = false → strLeads t "text" = false →
            strLeads t "multipart/form-data" = false →
            parseInput request = (.rawStream raw, true))) := by
  refine ⟨?_, ?_, ?_⟩
  · intro hbody
    simp [parseInput, hbody]
  · intro raw hbody hmethod hq
    simp only [parseInput, hbody]
    rw [if_pos hmethod, if_pos hq]
  · intro raw t hbody hmethod hcl hct
    refine ⟨?_, ?_, ?_, ?_⟩ <;> intros <;>
      simp_all [parseInput, hbody, hmethod, hcl, hct]

/-- Witness for `parse_input_spec`: a GET request carrying a (non-null)
body does get the query object, and a POST with an unrecognised
content-type logs and keeps the raw stream. -/
theorem parse_input_spec_witness :
    parseInput ⟨"GET", "/e?a=1", [], some ⟨.nullv, "", .nullv⟩⟩ =
      (.queryParams (parseQuery "a=1"), false)
    ∧ parseInput ⟨"POST", "/e", [("Content-Type", "application/octet-stream")],
        some ⟨.nullv, "", .nullv⟩⟩ = (.rawStream ⟨.nullv, "", .nullv⟩, true) := by
  constructor
  · exact (parse_input_spec ⟨"GET", "/e?a=1", [], some ⟨.nullv, "", .nullv⟩⟩).2.1
      ⟨.nullv, "", .nullv⟩ rfl rfl (by decide)
  · exact ((parse_input_spec ⟨"POST", "/e", [("Content-Type", "application/octet-stream")],
      some ⟨.nullv, "", .nullv⟩⟩).2.2 ⟨.nullv, "", .nullv⟩ "application/octet-stream"
      rfl (by decide) (by decide) rfl).2.2.2 (by decide) (by decide) (by decide)

/-! ## catMap and flattening lemmas (towards claim C2) -/

theorem catMap_append {α β : Type} (f : α → List β) (l₁ l₂ : List α) :
    catMap f (l₁ ++ l₂) = catMap f l₁ ++ catMap f l₂ := by
  induction l₁ with
  | nil => rfl
  | cons a t ih => simp [catMap, ih]

theorem catMap_map {α β γ : Type} (f : β → List γ) (g : α → β) (l : List α) :
    catMap f (l.map g) = catMap (fun x => f (g x)) l := by
  induction l with
  | nil => rfl
  | cons a t ih => simp [catMap, ih]

theorem map_catMap {α β γ : Type} (g : β → γ) (f : α → List β) (l : List α) :
    (catMap f l).map g = catMap (fun x => (f x).map g) l := by
  induction l with
  | nil => rfl
  | cons a t ih => simp [catMap, ih]

theorem catMap_reverse_perm {α β : Type} (f : α → List β) (l : List α) :
    List.Perm (catMap f l.reverse) (catMap f l) := by
  induction l with
  | nil => exact List.Perm.refl _
  | cons a t ih =>
    rw [List.reverse_cons, catMap_append]
    show List.Perm (catMap f t.reverse ++ catMap f [a]) (catMap f (a :: t))
    have h1 : catMap f [a] = f a := by simp [catMap]
    rw [h1]
    show List.Perm (catMap f t.reverse ++ f a) (f a ++ catMap f t)
    exact (List.perm_append_comm).trans (List.Perm.append_left (f a) ih)

theorem catMap_attach {α β : Type} (l : List α) (f : α → List β) :
    catMap (fun c => f c.1) l.attach = catMap f l := by
  have h := catMap_map f Subtype.val l.attach
  rw [List.attach_map_subtype_val] at h
  exact h.symm

theorem flattenTree_leaf (path : String) (p : Procedure) :
    flattenTree path (.leaf p) = [(path, p)] := by
  simp [flattenTree]

theorem flattenTree_node (path : String) (cs : List (String × PTree)) :
    flattenTree path (.node cs) = catMap (fun c => flattenTree (joinPath path c.1) c.2) cs := by
  have h : flattenTree path (.node cs) =
      catMap (fun c => flattenTree (joinPath path c.1.1) c.1.2) cs.attach := by
    simp [flattenTree]
  rw [h]
  exact catMap_attach cs (fun c => flattenTree (joinPath path c.1) c.2)

theorem stackPaths_nil : stackPaths [] = [] := rfl

theorem stackPaths_cons (e : String × PTree) (rest : List (String × PTree)) :
    stackPaths (e :: rest) = (flattenTree e.1 e.2).map Prod.fst ++ stackPaths rest := rfl

theorem stackProcs_cons (e : String × PTree) (rest : List (String × PTree)) :
    stackProcs (e :: rest) = (flattenTree e.1 e.2).map Prod.snd ++ stackProcs rest := rfl

theorem stackProj_node_perm {γ : Type} (f : String × Procedure → γ) (path : String)
    (cs rest : List (String × PTree)) :
    List.Perm
      (catMap (fun e => (flattenTree e.1 e.2).map f)
        ((cs.map (fun c => (joinPath path c.1, c.2))).reverse ++ rest))
      (catMap (fun e => (flattenTree e.1 e.2).map f) ((path, PTree.node cs) :: rest)) := by
  rw [catMap_append]
  have hcons : catMap (fun e => (flattenTree e.1 e.2).map f) ((path, PTree.node cs) :: rest)
      = (flattenTree path (.node cs)).map f
        ++ catMap (fun e => (flattenTree e.1 e.2).map f) rest := rfl
  rw [hcons, flattenTree_node, map_catMap]
  refine List.Perm.append ?_ (List.Perm.refl _)
  have h1 := catMap_reverse_perm (fun e => (flattenTree e.1 e.2).map f)
    (cs.map (fun c => (joinPath path c.1, c.2)))
  have h2 : catMap (fun e => (flattenTree e.1 e.2).map f)
        (cs.map (fun c => (joinPath path c.1, c.2)))
      = catMap (fun c => (flattenTree (joinPath path c.1) c.2).map f) cs :=
    catMap_map _ _ _
  exact h1.trans (h2 ▸ List.Perm.refl _)

theorem stackPaths_node_perm (path : String) (cs rest : List (String × PTree)) :
    List.Perm (stackPaths ((cs.map (fun c => (joinPath path c.1, c.2))).reverse ++ rest))
      (stackPaths ((path, PTree.node cs) :: rest)) :=
  stackProj_node_perm Prod.fst path cs rest

theorem stackProcs_node_perm (path : String) (cs rest : List (String × PTree)) :
    List.Perm (stackProcs ((cs.map (fun c => (joinPath path c.1, c.2))).reverse ++ rest))
      (stackProcs ((path, PTree.node cs) :: rest)) :=
  stackProj_node_perm Prod.snd path cs rest

theorem stackPaths_eq_initPaths (i : InitEntry) :
    stackPaths i.tree = (flattenInit i).map Prod.fst := by
  unfold stackPaths flattenInit
  rw [map_catMap]

theorem stackProcs_eq_initProcs (i : InitEntry) :
    stackProcs i.tree = (flattenInit i).map Prod.snd := by
  unfold stackProcs flattenInit
  rw [map_catMap]

theorem stackPaths_reverse_init (i : InitEntry) :
    List.Perm (stackPaths i.tree.reverse) ((flattenInit i).map Prod.fst) := by
  have h := catMap_reverse_perm (fun e => (flattenTree e.1 e.2).map Prod.fst) i.tree
  have h2 : List.Perm (stackPaths i.tree) ((flattenInit i).map Prod.fst) := by
    rw [stackPaths_eq_initPaths]
  exact h.trans h2

theorem stackProcs_reverse_init (i : InitEntry) :
    List.Perm (stackProcs i.tree.reverse) ((flattenInit i).map Prod.snd) := by
  have h := catMap_reverse_perm (fun e => (flattenTree e.1 e.2).map Prod.snd) i.tree
  have h2 : List.Perm (stackProcs i.tree) ((flattenInit i).map Prod.snd) := by
    rw [stackProcs_eq_initProcs]
  exact h.trans h2

theorem allPaths_cons (i : InitEntry) (rest : List InitEntry) :
    allPaths (i :: rest) = (flattenInit i).map Prod.fst ++ allPaths rest := rfl

theorem allProcs_cons (i : InitEntry) (rest : List InitEntry) :
    allProcs (i :: rest) = (flattenInit i).map Prod.snd ++ allProcs rest := rfl

theorem compile_error_eq {p : Procedure} {e : BuildErr}
    (h : Procedure.compile p = .error e) :
    e = .missingHandlerE ∧ p.handlerFunction = none := by
  unfold Procedure.compile at h
  cases hf : p.handlerFunction with
  | none =>
    rw [hf] at h
    exact ⟨(Except.error.inj h).symm, rfl⟩
  | some f =>
    rw [hf] at h
    exfalso
    cases hi : p.inputSchema <;> cases ho : p.outputSchema <;>
      rw [hi, ho] at h <;> simp at h

/-! ## The walk invariants of `buildGo` -/

theorem buildGo_ok (g s : List MWId) (stack : List (String × PTree))
    (handlers : List (String × TableEntry)) :
    ∀ tbl, buildGo g s stack handlers = .ok tbl →
      List.Perm (tbl.map Prod.fst) (handlers.map Prod.fst ++ stackPaths stack)
      ∧ ((handlers.map Prod.fst).Nodup → (tbl.map Prod.fst).Nodup) := by
  induction stack, handlers using buildGo.induct g s with
  | case1 handlers =>
    intro tbl h
    have h' : handlers = tbl := by simpa [buildGo] using h
    subst h'
    constructor
    · rw [stackPaths_nil, List.append_nil]
    · exact id
  | case2 path p rest handlers hcond =>
    intro tbl h
    simp [buildGo, hcond] at h
  | case3 path p rest handlers hcond e hcompile =>
    intro tbl h
    simp [buildGo, hcond, hcompile] at h
  | case4 path p rest handlers hcond compiled hcompile ih =>
    intro tbl h
    have hrec : buildGo g s rest
        (handlers ++ [(path, (jsSetOfList (g ++ s ++ p.middlewares), compiled))]) = .ok tbl := by
      simpa [buildGo, hcond, hcompile] using h
    obtain ⟨hperm, hnd⟩ := ih tbl hrec
    have hkeys : (handlers ++ [(path, (jsSetOfList (g ++ s ++ p.middlewares), compiled))]).map
          Prod.fst ++ stackPaths rest
        = handlers.map Prod.fst ++ stackPaths ((path, PTree.leaf p) :: rest) := by
      rw [stackPaths_cons, flattenTree_leaf, List.map_append]
      simp [List.append_assoc]
    constructor
    · exact hperm.trans (hkeys ▸ List.Perm.refl _)
    · intro hnodup
      apply hnd
      rw [List.map_append]
      simp only [List.map_cons, List.map_nil]
      rw [List.nodup_append]
      refine ⟨hnodup, List.nodup_singleton _, ?_⟩
      intro x hx hx'
      rcases List.mem_singleton.mp hx' with rfl
      have hnone : lookupKey handlers x = none := Option.not_isSome_iff_eq_none.mp hcond
      exact (lookupKey_none_iff _ _).mp hnone hx
  | case5 path children rest handlers ih =>
    intro tbl h
    have hrec : buildGo g s
        ((children.map (fun c => (joinPath path c.1, c.2))).reverse ++ rest) handlers
          = .ok tbl := by
      simpa [buildGo] using h
    obtain ⟨hperm, hnd⟩ := ih tbl hrec
    exact ⟨hperm.trans
      (List.Perm.append_left _ (stackPaths_node_perm path children rest)), hnd⟩

theorem buildGo_error (g s : List MWId) (stack : List (String × PTree))
    (handlers : List (String × TableEntry)) :
    ∀ e, buildGo g s stack handlers = .error e →
      e = .missingHandlerE ∨ ∃ p, e = .conflictE p ∧
        2 ≤ (handlers.map Prod.fst ++ stackPaths stack).count p := by
  induction stack, handlers using buildGo.induct g s with
  | case1 handlers =>
    intro e h
    simp [buildGo] at h
  | case2 path p rest handlers hcond =>
    intro e h
    have he : BuildErr.conflictE path = e := by simpa [buildGo, hcond] using h
    refine Or.inr ⟨path, he.symm, ?_⟩
    obtain ⟨w, hw⟩ := Option.isSome_iff_exists.mp hcond
    have hmem : path ∈ handlers.map Prod.fst :=
      List.mem_map.mpr ⟨(path, w), lookupKey_mem hw, rfl⟩
    have h1 : 1 ≤ (handlers.map Prod.fst).count path := List.count_pos_iff.mpr hmem
    have h2 : 1 ≤ (stackPaths ((path, PTree.leaf p) :: rest)).count path := by
      rw [stackPaths_cons, flattenTree_leaf]
      simp [List.count_cons]
    rw [List.count_append]
    omega
  | case3 path p rest handlers hcond e' hcompile =>
    intro e h
    have he : e' = e := by simpa [buildGo, hcond, hcompile] using h
    subst he
    exact Or.inl (compile_error_eq hcompile).1
  | case4 path p rest handlers hcond compiled hcompile ih =>
    intro e h
    have hrec : buildGo g s rest
        (handlers ++ [(path, (jsSetOfList (g ++ s ++ p.middlewares), compiled))]) = .error e := by
      simpa [buildGo, hcond, hcompile] using h
    rcases ih e hrec with hm | ⟨p', hp', hcount⟩
    · exact Or.inl hm
    · refine Or.inr ⟨p', hp', ?_⟩
      have hkeys : (handlers ++ [(path, (jsSetOfList (g ++ s ++ p.middlewares), compiled))]).map
            Prod.fst ++ stackPaths rest
          = handlers.map Prod.fst ++ stackPaths ((path, PTree.leaf p) :: rest) := by
        rw [stackPaths_cons, flattenTree_leaf, List.map_append]
        simp [List.append_assoc]
      rw [hkeys] at hcount
      exact hcount
  | case5 path children rest handlers ih =>
    intro e h
    have hrec : buildGo g s
        ((children.map (fun c => (joinPath path c.1, c.2))).reverse ++ rest) handlers
          = .error e := by
      simpa [buildGo] using h
    rcases ih e hrec with hm | ⟨p', hp', hcount⟩
    · exact Or.inl hm
    · refine Or.inr ⟨p', hp', ?_⟩
      have hperm := List.Perm.append_left (handlers.map Prod.fst)
        (stackPaths_node_perm path children rest)
      rw [hperm.count_eq] at hcount
      exact hcount

theorem buildGo_no_missing (g s : List MWId) (stack : List (String × PTree))
    (handlers : List (String × TableEntry)) :
    (∀ q ∈ stackProcs stack, q.handlerFunction.isSome) →
    buildGo g s stack handlers ≠ .error .missingHandlerE := by
  induction stack, handlers using buildGo.induct g s with
  | case1 handlers =>
    intro _ h
    simp [buildGo] at h
  | case2 path p rest handlers hcond =>
    intro _ h
    have he : BuildErr.conflictE path = BuildErr.missingHandlerE := by
      simpa [buildGo, hcond] using h
    cases he
  | case3 path p rest handlers hcond e hcompile =>
    intro hall _
    have hnone : p.handlerFunction = none := (compile_error_eq hcompile).2
    have hmem : p ∈ stackProcs ((path, PTree.leaf p) :: rest) := by
      rw [stackProcs_cons, flattenTree_leaf]
      simp
    have := hall p hmem
    rw [hnone] at this
    cases this
  | case4 path p rest handlers hcond compiled hcompile ih =>
    intro hall h
    have hrec : buildGo g s rest
        (handlers ++ [(path, (jsSetOfList (g ++ s ++ p.middlewares), compiled))]) =
          .error .missingHandlerE := by
      simpa [buildGo, hcond, hcompile] using h
    refine ih ?_ hrec
    intro q hq
    apply hall
    rw [stackProcs_cons]
    exact List.mem_append.mpr (Or.inr hq)
  | case5 path children rest handlers ih =>
    intro hall h
    have hrec : buildGo g s
        ((children.map (fun c => (joinPath path c.1, c.2))).reverse ++ rest) handlers =
          .error .missingHandlerE := by
      simpa [buildGo] using h
    refine ih ?_ hrec
    intro q hq
    exact hall q ((stackProcs_node_perm path children rest).mem_iff.mp hq)

/-! ## The `buildAll` invariants -/

theorem buildAll_ok (g : List MWId) :
    ∀ (inits : List InitEntry) (handlers tbl : List (String × TableEntry)),
      buildAll g inits handlers = .ok tbl →
      List.Perm (tbl.map Prod.fst) (handlers.map Prod.fst ++ allPaths inits)
      ∧ ((handlers.map Prod.fst).Nodup → (tbl.map Prod.fst).Nodup) := by
  intro inits
  induction inits with
  | nil =>
    intro handlers tbl h
    have h' : handlers = tbl := by simpa [buildAll] using h
    subst h'
    constructor
    · have hnil : allPaths ([] : List InitEntry) = [] := rfl
      rw [hnil, List.append_nil]
    · exact id
  | cons i rest ih =>
    intro handlers tbl h
    cases hb : buildGo g i.scopedMws i.tree.reverse handlers with
    | error e => simp [buildAll, hb] at h
    | ok hs' =>
      have hrec : buildAll g rest hs' = .ok tbl := by simpa [buildAll, hb] using h
      obtain ⟨hp1, hn1⟩ := buildGo_ok g i.scopedMws i.tree.reverse handlers hs' hb
      obtain ⟨hp2, hn2⟩ := ih hs' tbl hrec
      constructor
      · refine hp2.trans ?_
        have step1 : List.Perm (hs'.map Prod.fst ++ allPaths rest)
            ((handlers.map Prod.fst ++ stackPaths i.tree.reverse) ++ allPaths rest) :=
          List.Perm.append hp1 (List.Perm.refl _)
        refine step1.trans ?_
        rw [List.append_assoc, allPaths_cons]
        exact List.Perm.append_left _
          (List.Perm.append (stackPaths_reverse_init i) (List.Perm.refl _))
      · intro hnodup
        exact hn2 (hn1 hnodup)

theorem buildAll_error (g : List MWId) :
    ∀ (inits : List InitEntry) (handlers : List (String × TableEntry)) (e : BuildErr),
      buildAll g inits handlers = .error e →
      e = .missingHandlerE ∨ ∃ p, e = .conflictE p ∧
        2 ≤ (handlers.map Prod.fst ++ allPaths inits).count p := by
  intro inits
  induction inits with
  | nil =>
    intro handlers e h
    simp [buildAll] at h
  | cons i rest ih =>
    intro handlers e h
    cases hb : buildGo g i.scopedMws i.tree.reverse handlers with
    | error e' =>
      have he : e' = e := by simpa [buildAll, hb] using h
      subst he
      rcases buildGo_error g i.scopedMws i.tree.reverse handlers e' hb
        with hm | ⟨p', hp', hcount⟩
      · exact Or.inl hm
      · refine Or.inr ⟨p', hp', ?_⟩
        have hperm := List.Perm.append_left (handlers.map Prod.fst)
          (stackPaths_reverse_init i)
        rw [hperm.count_eq, List.count_append] at hcount
        rw [allPaths_cons, List.count_append, List.count_append]
        omega
    | ok hs' =>
      have hrec : buildAll g rest hs' = .error e := by simpa [buildAll, hb] using h
      rcases ih hs' e hrec with hm | ⟨p', hp', hcount⟩
      · exact Or.inl hm
      · refine Or.inr ⟨p', hp', ?_⟩
        obtain ⟨hp1, _⟩ := buildGo_ok g i.scopedMws i.tree.reverse handlers hs' hb
        have hkeys : List.Perm (hs'.map Prod.fst)
            (handlers.map Prod.fst ++ (flattenInit i).map Prod.fst) :=
          hp1.trans (List.Perm.append_left _ (stackPaths_reverse_init i))
        rw [List.count_append, hkeys.count_eq, List.count_append] at hcount
        rw [allPaths_cons, List.count_append, List.count_append]
        omega

theorem buildAll_no_missing (g : List MWId) :
    ∀ (inits : List InitEntry) (handlers : List (String × TableEntry)),
      (∀ q ∈ allProcs inits, q.handlerFunction.isSome) →
      buildAll g inits handlers ≠ .error .missingHandlerE := by
  intro inits
  induction inits with
  | nil =>
    intro handlers _ h
    simp [buildAll] at h
  | cons i rest ih =>
    intro handlers hall h
    cases hb : buildGo g i.scopedMws i.tree.reverse handlers with
    | error e' =>
      have he : e' = BuildErr.missingHandlerE := by simpa [buildAll, hb] using h
      subst he
      refine buildGo_no_missing g i.scopedMws i.tree.reverse handlers ?_ hb
      intro q hq
      apply hall
      rw [allProcs_cons]
      refine List.mem_append.mpr (Or.inl ?_)
      exact (stackProcs_reverse_init i).mem_iff.mp hq
    | ok hs' =>
      have hrec : buildAll g rest hs' = .error .missingHandlerE := by
        simpa [buildAll, hb] using h
      refine ih hs' ?_ hrec
      intro q hq
      apply hall
      rw [allProcs_cons]
      exact List.mem_append.mpr (Or.inr hq)

/-! ## Claim C2: duplicate paths are a hard build failure -/

/-- C2: whenever the flattened operation trees of the registered
initializers contain the same `/`-joined path twice, `build` never
produces a dispatch table — under no registration order does one duplicate
silently win — and (provided every operation has its handler set, the
spec's §3 invariant, so that the even-earlier missing-handler error cannot
preempt it) the failure is precisely a conflict error naming a path that
occurs at least twice. -/
theorem build_conflict_on_duplicates (g : List MWId) (inits : List InitEntry)
    (hdup : ¬ (allPaths inits).Nodup) :
    (∀ tbl, build g inits ≠ .ok tbl)
    ∧ ((∀ q ∈ allProcs inits, q.handlerFunction.isSome) →
        ∃ p, build g inits = .error (.conflictE p) ∧ 2 ≤ (allPaths inits).count p) := by
  have hnotok : ∀ tbl, build g inits ≠ .ok tbl := by
    intro tbl hok
    obtain ⟨hperm, hnd⟩ := buildAll_ok g inits [] tbl hok
    have hnodup : (tbl.map Prod.fst).Nodup := hnd (by simp)
    have : (allPaths inits).Nodup := by
      have h2 : List.Perm (tbl.map Prod.fst) (allPaths inits) := by
        simpa using hperm
      exact h2.nodup hnodup
    exact hdup this
  refine ⟨hnotok, ?_⟩
  intro hall
  cases hres : build g inits with
  | ok tbl => exact absurd hres (hnotok tbl)
  | error e =>
    rcases buildAll_error g inits [] e hres with hm | ⟨p, hp, hcount⟩
    · subst hm
      exact absurd hres (buildAll_no_missing g inits [] hall)
    · subst hp
      refine ⟨p, rfl, ?_⟩
      simpa using hcount

/-- Witness for `build_conflict_on_duplicates`: two initializers both
registering the path `"dup"` (with handlers set) make `build` throw the
conflict error for `"dup"`. -/
theorem build_conflict_on_duplicates_witness :
    ¬ (allPaths exDupInits).Nodup
    ∧ (∀ q ∈ allProcs exDupInits, q.handlerFunction.isSome)
    ∧ ∃ p, build [] exDupInits = .error (.conflictE p)
        ∧ 2 ≤ (allPaths exDupInits).count p := by
  have hpaths : allPaths exDupInits = ["dup", "dup"] := by
    simp [exDupInits, allPaths, flattenInit, catMap, flattenTree_leaf]
  have hprocs : allProcs exDupInits = [exPlainProcedure, exPlainProcedure] := by
    simp [exDupInits, allProcs, flattenInit, catMap, flattenTree_leaf]
  have hdup : ¬ (allPaths exDupInits).Nodup := by
    rw [hpaths]
    decide
  have hall : ∀ q ∈ allProcs exDupInits, q.handlerFunction.isSome := by
    rw [hprocs]
    intro q hq
    rcases List.mem_cons.mp hq with rfl | hq'
    · rfl
    · rcases List.mem_cons.mp hq' with rfl | hq''
      · rfl
      · cases hq''
  exact ⟨hdup, hall, (build_conflict_on_duplicates [] exDupInits hdup).2 hall⟩

end Ultra
